import Mathlib

/-!
Verification of the `sequents` repository: a Gentzen-style sequent prover for
propositional logic (src/sequent.hh), a structural-equality oracle modulo
commutativity and idempotence of certain connectives (Sequent::formulas_equal),
a union-find based comparison cache (src/unionfind.hh, CompareCache),
a transactional shared-map layer (src/sync.hh, Transaction), and a lazy
collection-view algebra (src/collections.hh).

Modelling conventions, shared by the whole development:

* C++ sequential semantics.  The source evaluates `for_any` / `for_all`
  tasks through a parallel driver with short-circuiting; we model the
  in-order sequential execution (tasks evaluated left to right in the
  order of the underlying view, stopping at the first decisive answer).
  The Boolean combination itself is commutative, so only termination
  behaviour depends on the order.
* Possible non-termination of `Sequent::prove` is modelled by a fuel
  parameter; the value `none` means that no Boolean result was produced
  (either the recursion exceeded the fuel, or the C++ code would have
  thrown a RuntimeError / FormulaIndexError on that path).
* Machine integers (`uint64_t` in Formula::hash / Symbol::hash) are
  modelled as `Nat` with explicit reduction modulo `2 ^ 64`.
* Object identity: the union-find tables of src/unionfind.hh are keyed by
  `const Value*` pointers, and the collection views count elements by
  pointer identity.  We model a heap object as a value tagged with a `Nat`
  address; pointer comparison is address comparison.
-/

namespace Sequents

/-- Sequential short-circuit disjunction of fallible Boolean tasks: the model
of `view.for_any(task)` (src/collections.hh, Parallel::run_parallel with
`mode = true`) when the tasks are run in view order.  A task returning `none`
(no result: divergence or a thrown error) before a decisive `true` makes the
whole evaluation produce no result. -/
def oAny {α : Type} (f : α → Option Bool) : List α → Option Bool
  | [] => some false
  | x :: xs =>
    match f x with
    | none => none
    | some true => some true
    | some false => oAny f xs

/-- Sequential short-circuit conjunction of fallible Boolean tasks: the model
of `view.for_all(task)` (src/collections.hh, `mode = false`). -/
def oAll {α : Type} (f : α → Option Bool) : List α → Option Bool
  | [] => some true
  | x :: xs =>
    match f x with
    | none => none
    | some false => some false
    | some true => oAll f xs

/-- Insert into a list sorted by a `Nat` key, keeping existing order among
equal keys. -/
def insertByKey {α : Type} (key : α → Nat) (x : α) : List α → List α
  | [] => [x]
  | y :: ys => if key x ≤ key y then x :: y :: ys else y :: insertByKey key x ys

/-- Model of `view.sort(weight)` (src/collections.hh, Reorder::sort): a
permutation of the underlying view ordered by ascending key.  The C++ keys
are `float` values computed from `total_size`; they take the integer values
modelled here by the `Nat` keys.  All theorems below are insensitive to the
particular permutation produced. -/
def sortByKey {α : Type} (key : α → Nat) : List α → List α
  | [] => []
  | x :: xs => insertByKey key x (sortByKey key xs)

theorem insertByKey_perm {α : Type} (key : α → Nat) (x : α) (l : List α) :
    List.Perm (insertByKey key x l) (x :: l) := by
  induction l with
  | nil => simp [insertByKey]
  | cons y ys ih =>
    simp only [insertByKey]
    by_cases h : key x ≤ key y
    · simp [h]
    · simp only [h, if_neg, ite_false]
      exact List.Perm.trans (List.Perm.cons y ih) (List.Perm.swap x y ys)

theorem sortByKey_perm {α : Type} (key : α → Nat) (l : List α) :
    List.Perm (sortByKey key l) l := by
  induction l with
  | nil => simp [sortByKey]
  | cons x xs ih =>
    exact List.Perm.trans (insertByKey_perm key x (sortByKey key xs))
      (List.Perm.cons x ih)

theorem mem_sortByKey {α : Type} {key : α → Nat} {x : α} {l : List α}
    (h : x ∈ sortByKey key l) : x ∈ l :=
  (sortByKey_perm key l).mem_iff.mp h

theorem mem_sortByKey_of_mem {α : Type} {key : α → Nat} {x : α} {l : List α}
    (h : x ∈ l) : x ∈ sortByKey key l :=
  (sortByKey_perm key l).mem_iff.mpr h

/-- If every task on the list yields a result, so does the sequential
disjunction. -/
theorem oAny_isSome {α : Type} {f : α → Option Bool} {l : List α}
    (h : ∀ x ∈ l, (f x).isSome) : (oAny f l).isSome := by
  induction l with
  | nil => simp [oAny]
  | cons x xs ih =>
    have hx := h x (List.mem_cons_self x xs)
    simp only [oAny]
    cases hfx : f x with
    | none => rw [hfx] at hx; simp at hx
    | some b =>
      cases b with
      | true => simp
      | false => exact ih fun y hy => h y (List.mem_cons_of_mem x hy)

/-- If every task on the list yields a result, so does the sequential
conjunction. -/
theorem oAll_isSome {α : Type} {f : α → Option Bool} {l : List α}
    (h : ∀ x ∈ l, (f x).isSome) : (oAll f l).isSome := by
  induction l with
  | nil => simp [oAll]
  | cons x xs ih =>
    have hx := h x (List.mem_cons_self x xs)
    simp only [oAll]
    cases hfx : f x with
    | none => rw [hfx] at hx; simp at hx
    | some b =>
      cases b with
      | false => simp
      | true => exact ih fun y hy => h y (List.mem_cons_of_mem x hy)

theorem oAny_eq_some_true {α : Type} {f : α → Option Bool} {l : List α}
    (h : oAny f l = some true) : ∃ x ∈ l, f x = some true := by
  induction l with
  | nil => simp [oAny] at h
  | cons x xs ih =>
    simp only [oAny] at h
    cases hfx : f x with
    | none => rw [hfx] at h; simp at h
    | some b =>
      cases b with
      | true => exact ⟨x, List.mem_cons_self x xs, hfx⟩
      | false =>
        rw [hfx] at h
        obtain ⟨y, hy, hfy⟩ := ih h
        exact ⟨y, List.mem_cons_of_mem x hy, hfy⟩

theorem oAny_eq_some_false {α : Type} {f : α → Option Bool} {l : List α}
    (h : oAny f l = some false) : ∀ x ∈ l, f x = some false := by
  induction l with
  | nil => simp
  | cons x xs ih =>
    intro y hy
    simp only [oAny] at h
    cases hfx : f x with
    | none => rw [hfx] at h; simp at h
    | some b =>
      cases b with
      | true => rw [hfx] at h; simp at h
      | false =>
        rw [hfx] at h
        rcases List.mem_cons.mp hy with h' | h'
        · rw [h']; exact hfx
        · exact ih h y h'

end Sequents

namespace Sequents

/-! ### Transactional shared map (src/sync.hh, class Transaction)

The backing map (`Map& back_map`) is modelled as an association list from
keys to values; `AList.lookup`-style access is modelled by a first-match
lookup.  A transaction carries a writes cache and an erases set (the reads
and counts caches play no role in `commit_transaction` and are omitted from
the commit model).  The mutexes serialize access; we model the serialized
execution directly. -/

/-- First-match lookup in an association-list map. -/
def mapLookup {K V : Type} [DecidableEq K] (m : List (K × V)) (k : K) :
    Option V :=
  (m.find? fun kv => kv.1 == k).map Prod.snd

/-- `back_map[key] = value` on an association-list map: the function-update
semantics of `unordered_map::operator[]` followed by assignment (any previous
binding of the key is superseded). -/
def mapInsert {K V : Type} [DecidableEq K] (m : List (K × V)) (k : K) (v : V) :
    List (K × V) :=
  (k, v) :: m.filter fun kv => !(kv.1 == k)

/-- `back_map.erase(key)`. -/
def mapErase {K V : Type} [DecidableEq K] (m : List (K × V)) (k : K) :
    List (K × V) :=
  m.filter fun kv => !(kv.1 == k)

/-- Pending state of a `Transaction<Map, SharedMutex>`: the writes cache and
the erases set (src/sync.hh lines 377-379). -/
structure Txn (K V : Type) where
  writes : List (K × V)
  erases : List K

/-- Apply the writes cache to the backing map, in cache order: the first
loop of `commit_transaction` (src/sync.hh lines 726-730). -/
def applyWrites {K V : Type} [DecidableEq K] (ws : List (K × V))
    (m : List (K × V)) : List (K × V) :=
  ws.foldl (fun acc kv => mapInsert acc kv.1 kv.2) m

/-- Apply the erases set to the backing map: the second loop of
`commit_transaction` (src/sync.hh lines 732-736). -/
def applyErases {K V : Type} [DecidableEq K] (es : List K)
    (m : List (K × V)) : List (K × V) :=
  es.foldl (fun acc k => mapErase acc k) m

/-- Model of `Transaction::commit_transaction(test)` (src/sync.hh lines
720-752).  The writes and erases are applied to the backing map; a tester
transaction over the now-modified map is handed to the validator (the tester
is fresh, so its reads are exactly lookups in the modified map, which is how
we model it).  If the validator rejects, the source loops over the local
`writes_unwind` map and `erases_unwind` set — both of which are declared at
the top of the function and never populated, so the rollback loops run over
empty containers — and then throws TransactionError.  The result is the
final backing map together with `true` for a successful commit and `false`
for a thrown TransactionError. -/
def commit_transaction {K V : Type} [DecidableEq K] (t : Txn K V)
    (test : (K → Option V) → Bool) (m : List (K × V)) :
    List (K × V) × Bool :=
  let writes_unwind : List (K × V) := []
  let erases_unwind : List K := []
  let m1 := applyWrites t.writes m
  let m2 := applyErases t.erases m1
  if test (mapLookup m2) then (m2, true)
  else
    let m3 := applyWrites writes_unwind m2
    let m4 := applyErases erases_unwind m3
    (m4, false)

end Sequents

namespace Sequents

theorem mapLookup_mapInsert {K V : Type} [DecidableEq K] (m : List (K × V))
    (k z : K) (v : V) :
    mapLookup (mapInsert m k v) z = if z = k then some v else mapLookup m z := by
  by_cases hzk : z = k
  · subst hzk
    simp [mapLookup, mapInsert, List.find?]
  · simp only [mapLookup, mapInsert, if_neg hzk]
    have hk : ((k, v).1 == z) = false := by
      simp [beq_iff_eq]
      intro h
      exact hzk h.symm
    rw [List.find?]
    rw [hk]
    congr 1
    induction m with
    | nil => simp
    | cons kv rest ih =>
      by_cases hkvk : kv.1 = k
      · have : (kv.1 == k) = true := beq_iff_eq.mpr hkvk
        have hkvz : (kv.1 == z) = false := by
          simp [beq_iff_eq, hkvk]
          intro h
          exact hzk h.symm
        simp only [List.filter, this, Bool.not_true]
        rw [List.find?]
        rw [hkvz]
        exact ih
      · have : (kv.1 == k) = false := by simp [beq_iff_eq, hkvk]
        simp only [List.filter, this, Bool.not_false]
        by_cases hkvz : kv.1 = z
        · have h2 : (kv.1 == z) = true := beq_iff_eq.mpr hkvz
          rw [List.find?, List.find?]
          rw [h2]
        · have h2 : (kv.1 == z) = false := by simp [beq_iff_eq, hkvz]
          rw [List.find?, List.find?]
          rw [h2]
          exact ih

end Sequents

namespace Sequents

/-- C6: when the validator of `commit_transaction` returns false, the claim
says all tentatively applied writes are rolled back and the backing map is
restored to its pre-commit state before TransactionError is raised.  The code
declares the rollback containers `writes_unwind` and `erases_unwind` and
loops over them on rejection, but never populates them, so the rollback is a
no-op: at the failing input below (empty backing map, one pending write
`0 ↦ 1`, a validator that always rejects) the backing map keeps the
tentatively applied write while TransactionError is raised. -/
theorem C6_commit_rejection_leaves_writes_applied :
    commit_transaction (⟨[(0, 1)], []⟩ : Txn Nat Nat) (fun _ => false) []
      = ([(0, 1)], false)
    ∧ ([(0, 1)] : List (Nat × Nat)) ≠ [] := by
  constructor
  · rfl
  · simp

/-! ### Collection views (src/collections.hh)

The component views are modelled as materialized (`Unfold`) views, i.e. plain
lists with the bounds-checked access of `Unfold::operator[]`.  A failed access
is an explicit error value: `indexError` models a thrown IndexError, while
`undefinedBehavior` models C++ undefined behaviour (an integer division by
zero, or a `std::vector::operator[]` read past the end). -/

/-- Outcome of a failing view access. -/
inductive ViewErr where
  | indexError
  | undefinedBehavior
deriving DecidableEq

/-- `Unfold<Item>::operator[]` (src/collections.hh lines 1736-1741): checked
access, throwing IndexError when the index is at or past the size. -/
def unfoldGet {α : Type} (xs : List α) (i : Nat) : Except ViewErr α :=
  if h : i < xs.length then Except.ok (xs.get ⟨i, h⟩)
  else Except.error ViewErr.indexError

/-- `Cartesian::operator[]` (src/collections.hh lines 1005-1010): computes
`i = index % one.size()` and `j = index / one.size()` and returns the pair
`(one[i], two[j])`.  There is no bounds check of its own; when
`one.size() = 0` the modulo is an integer division by zero (C++ undefined
behaviour), and otherwise an out-of-range index surfaces only through the
component accesses. -/
def cartesianGet {α β : Type} (one : List α) (two : List β) (index : Nat) :
    Except ViewErr (α × β) :=
  if one.length = 0 then Except.error ViewErr.undefinedBehavior
  else do
    let x ← unfoldGet one (index % one.length)
    let y ← unfoldGet two (index / one.length)
    Except.ok (x, y)

/-- `Zip::operator[]` (src/collections.hh lines 1127-1130): returns the pair
`(one[index], two[index])` with no bounds check of its own. -/
def zipGet {α β : Type} (one : List α) (two : List β) (index : Nat) :
    Except ViewErr (α × β) := do
  let x ← unfoldGet one index
  let y ← unfoldGet two index
  Except.ok (x, y)

/-- C9 counterexample: the claim says indexing any view at an index at or
past its size raises IndexError.  For a Cartesian view whose first component
is empty, the size is `0 * 1 = 0` and accessing index `0` (which equals the
size) hits the division by zero `index % one.size()` — undefined behaviour,
not an IndexError. -/
theorem C9_cartesian_empty_component_counterexample :
    cartesianGet ([] : List Nat) [0] 0 = Except.error ViewErr.undefinedBehavior
    ∧ ViewErr.undefinedBehavior ≠ ViewErr.indexError := by
  constructor
  · rfl
  · simp

/-- C9 amended: for a Cartesian view whose first component is nonempty, and
for a Zip view of equal-sized components, accessing an index at or past the
view size does fail with IndexError — raised by the bounds-checked component
access, since neither `Cartesian::operator[]` nor `Zip::operator[]` checks
the index itself; a Cartesian view with an empty first component instead hits
undefined behaviour (division by zero). -/
theorem C9_out_of_range_surfaces_indexError {α β : Type}
    (one : List α) (two : List β) (i j : Nat)
    (hone : 0 < one.length) (hi : one.length * two.length ≤ i)
    (hlen : one.length = two.length) (hj : two.length ≤ j) :
    cartesianGet one two i = Except.error ViewErr.indexError
    ∧ zipGet one two j = Except.error ViewErr.indexError := by
  constructor
  · have hne : one.length ≠ 0 := Nat.pos_iff_ne_zero.mp hone
    have hmod : i % one.length < one.length := Nat.mod_lt _ hone
    have hdiv : two.length ≤ i / one.length := by
      rw [Nat.le_div_iff_mul_le hone]
      calc two.length * one.length = one.length * two.length := Nat.mul_comm _ _
        _ ≤ i := hi
    simp only [cartesianGet, if_neg hne]
    rw [unfoldGet, dif_pos hmod]
    rw [unfoldGet, dif_neg (Nat.not_lt.mpr hdiv)]
    rfl
  · have hj' : ¬ j < one.length := by
      rw [hlen]
      exact Nat.not_lt.mpr hj
    simp only [zipGet]
    rw [unfoldGet, dif_neg hj']
    rfl

/-- Witness for the C9 amended theorem at a concrete out-of-range input. -/
theorem C9_out_of_range_surfaces_indexError_witness :
    cartesianGet [10] [20] 1 = Except.error ViewErr.indexError
    ∧ zipGet [10] [(20 : Nat)] 1 = Except.error ViewErr.indexError :=
  C9_out_of_range_surfaces_indexError [10] [20] 1 1 (by decide) (by decide)
    (by decide) (by decide)

end Sequents

namespace Sequents

/-! ### Union-find comparison cache (src/unionfind.hh, CompareCache<Value>)

The two tables `hashes` and `unionfind` are keyed by `const Value*`; a heap
object is modelled as an `Inst`: a value tagged with its address.  Pointer
identity and the pointer order used by `join` are address equality and
address order.  The transactional retry loops collapse under the serialized
semantics (every commit validator re-reads exactly the values the transaction
just wrote, so it accepts on the first attempt), and the `equal_mutex`
upgrade path is likewise vacuous. -/

/-- A heap instance: a value together with the address of the object holding
it (the `const Value&` whose pointer keys the cache tables). -/
structure Inst (V : Type) where
  addr : Nat
  val : V

/-- The mutable state of a `CompareCache<Value>`: the memoized hash table
and the union-find parent table, both keyed by address. -/
structure CacheState where
  hashes : List (Nat × Nat)
  parent : List (Nat × Nat)
deriving DecidableEq

/-- The parent-chain walk of `CompareCache::find` (src/unionfind.hh lines
149-151): `while(store.count(p) && store[p] != p) p = store[p]`.  The C++
loop is unbounded; in every state produced by this model each stored link
points to an address not larger than its key, so a chain starting from
address `a` has at most `a` proper steps and fuel `a + 1` reproduces the
loop exactly. -/
def chase (parent : List (Nat × Nat)) : Nat → Nat → Nat
  | 0, p => p
  | fuel + 1, p =>
    match mapLookup parent p with
    | none => p
    | some q => if q = p then p else chase parent fuel q

/-- Model of `CompareCache::hash` (src/unionfind.hh lines 60-92): return the
memoized hash for the object if present, otherwise compute `value_hash` and
store it keyed by the object's address. -/
def cacheHash {V : Type} (valueHash : V → Nat) (s : CacheState) (x : Inst V) :
    Nat × CacheState :=
  match mapLookup s.hashes x.addr with
  | some h => (h, s)
  | none =>
    let h := valueHash x.val
    (h, { s with hashes := mapInsert s.hashes x.addr h })

/-- Model of `CompareCache::find` (src/unionfind.hh lines 137-176): chase the
parent chain of `one` to `p_one` and store `one ↦ p_one`, then (reading the
updated table) chase the chain of `two` to `p_two` and store `two ↦ p_two`;
the result is whether the two chain ends coincide.  Note that only the two
argument keys are written. -/
def cacheFind {V : Type} (s : CacheState) (one two : Inst V) :
    Bool × CacheState :=
  let p1 := chase s.parent (one.addr + 1) one.addr
  let par1 := mapInsert s.parent one.addr p1
  let p2 := chase par1 (two.addr + 1) two.addr
  let par2 := mapInsert par1 two.addr p2
  (decide (p1 = p2), { s with parent := par2 })

/-- Model of `CompareCache::join` (src/unionfind.hh lines 94-135): read (or
self-initialize) the parent `p_one` of `one` and the parent `p_two` of `two`,
then link the node with the higher parent address directly below the other
parent. -/
def cacheJoin {V : Type} (s : CacheState) (one two : Inst V) : CacheState :=
  let r1 :=
    match mapLookup s.parent one.addr with
    | some p => (p, s.parent)
    | none => (one.addr, mapInsert s.parent one.addr one.addr)
  let p1 := r1.1
  let r2 :=
    match mapLookup r1.2 two.addr with
    | some p => (p, r1.2)
    | none => (two.addr, mapInsert r1.2 two.addr two.addr)
  let p2 := r2.1
  let par := r2.2
  if p2 < p1 then { s with parent := mapInsert par one.addr p2 }
  else if p1 < p2 then { s with parent := mapInsert par two.addr p1 }
  else { s with parent := par }

/-- Model of `CompareCache::equal` (src/unionfind.hh lines 179-219):
pointer identity, then union-find lookup, then the hash pre-filter, then the
deep comparison `value_compare`, joining the two objects when the deep
comparison succeeds.  `value_hash` and `value_compare` are the two protected
customization points of the template, passed here as pure functions. -/
def cacheEqual {V : Type} (valueHash : V → Nat) (valueCompare : V → V → Bool)
    (s : CacheState) (one two : Inst V) : Bool × CacheState :=
  if one.addr = two.addr then (true, s)
  else
    let f := cacheFind s one two
    if f.1 then (true, f.2)
    else
      let h1 := cacheHash valueHash f.2 one
      let h2 := cacheHash valueHash h1.2 two
      if h1.1 ≠ h2.1 then (false, h2.2)
      else if valueCompare one.val two.val then (true, cacheJoin h2.2 one two)
      else (false, h2.2)

/-- A run of the cache: fold a list of `equal` calls through the state,
starting from a given state. -/
def runEqualCalls {V : Type} (valueHash : V → Nat)
    (valueCompare : V → V → Bool) (calls : List (Inst V × Inst V))
    (s : CacheState) : CacheState :=
  calls.foldl (fun st c => (cacheEqual valueHash valueCompare st c.1 c.2).2) s

end Sequents

namespace Sequents

/-- C7 counterexample: the claim says `find(x)` rewrites each node along the
traversed parent chain to point directly at the root.  Starting from the
empty cache, the three `equal` calls below (over the `uintptr_t`
specialization of the source, where `value_hash` is the identity and
`value_compare` is value equality) build the parent chain
`3 ↦ 2 ↦ 1 ↦ 0 ↦ 0`.  A subsequent `find` starting from the object at
address 3 traverses `3 → 2 → 1 → 0`, rewrites node 3 to the root 0, but
leaves the traversed node 2 pointing at 1, not at the root 0. -/
theorem C7_find_leaves_inner_chain_nodes_unrewritten :
    (runEqualCalls id (fun x y => x == y)
        [((⟨3, 7⟩ : Inst Nat), ⟨2, 7⟩), (⟨2, 7⟩, ⟨1, 7⟩), (⟨1, 7⟩, ⟨0, 7⟩)]
        ⟨[], []⟩).parent = [(1, 0), (0, 0), (2, 1), (3, 2)]
    ∧ (cacheFind (runEqualCalls id (fun x y => x == y)
        [((⟨3, 7⟩ : Inst Nat), ⟨2, 7⟩), (⟨2, 7⟩, ⟨1, 7⟩), (⟨1, 7⟩, ⟨0, 7⟩)]
        ⟨[], []⟩) ⟨3, 7⟩ ⟨9, 7⟩).2.parent
      = [(9, 9), (3, 0), (1, 0), (0, 0), (2, 1)]
    ∧ mapLookup [(9, 9), (3, 0), (1, 0), (0, 0), (2, 1)] 2 = some 1
    ∧ (1 : Nat) ≠ 0 := by
  refine ⟨rfl, rfl, rfl, by decide⟩

/-- C7 amended: `find` rewrites exactly its two argument nodes.  The first
argument is rewritten to the end of the parent chain traversed from it (its
root); every key other than the two argument addresses keeps its previous
binding, so inner chain nodes are not compressed. -/
theorem C7_find_rewrites_only_the_arguments {V : Type} (s : CacheState)
    (one two : Inst V) (z : Nat) (hz1 : z ≠ one.addr) (hz2 : z ≠ two.addr)
    (hot : one.addr ≠ two.addr) :
    mapLookup (cacheFind s one two).2.parent z = mapLookup s.parent z
    ∧ mapLookup (cacheFind s one two).2.parent one.addr
      = some (chase s.parent (one.addr + 1) one.addr) := by
  constructor
  · simp only [cacheFind]
    rw [mapLookup_mapInsert, if_neg hz2, mapLookup_mapInsert, if_neg hz1]
  · simp only [cacheFind]
    rw [mapLookup_mapInsert, if_neg hot, mapLookup_mapInsert, if_pos rfl]

/-- Witness for the C7 amended theorem at a concrete state and arguments. -/
theorem C7_find_rewrites_only_the_arguments_witness :
    mapLookup (cacheFind ⟨[], [(3, 2), (2, 1), (1, 0), (0, 0)]⟩
        (⟨3, 7⟩ : Inst Nat) ⟨9, 7⟩).2.parent 2
      = mapLookup [(3, 2), (2, 1), (1, 0), (0, 0)] 2
    ∧ mapLookup (cacheFind ⟨[], [(3, 2), (2, 1), (1, 0), (0, 0)]⟩
        (⟨3, 7⟩ : Inst Nat) ⟨9, 7⟩).2.parent 3
      = some (chase [(3, 2), (2, 1), (1, 0), (0, 0)] 4 3) :=
  C7_find_rewrites_only_the_arguments ⟨[], [(3, 2), (2, 1), (1, 0), (0, 0)]⟩
    ⟨3, 7⟩ ⟨9, 7⟩ 2 (by decide) (by decide) (by decide)

end Sequents

namespace Sequents

/-! ### Monotonicity of the cached equality (claim C5)

Reachable cache states only ever link objects whose values compare equal
under `value_compare` and hash equal under `value_hash`.  The heap is
modelled by a function `HP` from addresses to values; an instance is
heap-consistent when its value is the heap value at its address (distinct
`Inst`s with one address denote the same C++ object). -/

/-- A single union-find link from address `u` to address `v` is justified:
either it is a self link, or the two heap values hash equal and compare
equal. -/
def linkOK {V : Type} (h : V → Nat) (f : V → V → Bool) (HP : Nat → V)
    (u v : Nat) : Prop :=
  u = v ∨ (h (HP u) = h (HP v) ∧ f (HP u) (HP v) = true)

/-- Every stored parent link is justified. -/
def parentOK {V : Type} (h : V → Nat) (f : V → V → Bool) (HP : Nat → V)
    (par : List (Nat × Nat)) : Prop :=
  ∀ u v, mapLookup par u = some v → linkOK h f HP u v

/-- Every memoized hash is the `value_hash` of the heap value at its key. -/
def hashesOK {V : Type} (h : V → Nat) (HP : Nat → V)
    (hs : List (Nat × Nat)) : Prop :=
  ∀ u w, mapLookup hs u = some w → w = h (HP u)

theorem linkOK_refl {V : Type} (h : V → Nat) (f : V → V → Bool) (HP : Nat → V)
    (u : Nat) : linkOK h f HP u u :=
  Or.inl rfl

theorem linkOK_trans {V : Type} {h : V → Nat} {f : V → V → Bool} {HP : Nat → V}
    (ht : ∀ a b c, f a b = true → f b c = true → f a c = true)
    {u v w : Nat} (h1 : linkOK h f HP u v) (h2 : linkOK h f HP v w) :
    linkOK h f HP u w := by
  rcases h1 with rfl | ⟨hh1, hf1⟩
  · exact h2
  · rcases h2 with rfl | ⟨hh2, hf2⟩
    · exact Or.inr ⟨hh1, hf1⟩
    · exact Or.inr ⟨hh1.trans hh2, ht _ _ _ hf1 hf2⟩

theorem linkOK_symm {V : Type} {h : V → Nat} {f : V → V → Bool} {HP : Nat → V}
    (hs : ∀ a b, f a b = true → f b a = true)
    {u v : Nat} (h1 : linkOK h f HP u v) : linkOK h f HP v u := by
  rcases h1 with rfl | ⟨hh, hf⟩
  · exact Or.inl rfl
  · exact Or.inr ⟨hh.symm, hs _ _ hf⟩

/-- The end of a parent-chain walk stays link-justified relative to its
start. -/
theorem chase_linkOK {V : Type} {h : V → Nat} {f : V → V → Bool} {HP : Nat → V}
    {par : List (Nat × Nat)}
    (ht : ∀ a b c, f a b = true → f b c = true → f a c = true)
    (hpar : parentOK h f HP par) :
    ∀ fuel x, linkOK h f HP x (chase par fuel x) := by
  intro fuel
  induction fuel with
  | zero => intro x; exact linkOK_refl h f HP x
  | succ n ih =>
    intro x
    simp only [chase]
    cases hlk : mapLookup par x with
    | none => exact linkOK_refl h f HP x
    | some q =>
      simp only []
      by_cases hq : q = x
      · rw [if_pos hq]; exact linkOK_refl h f HP x
      · rw [if_neg hq]
        exact linkOK_trans ht (hpar x q hlk) (ih q)

theorem parentOK_insert {V : Type} {h : V → Nat} {f : V → V → Bool}
    {HP : Nat → V} {par : List (Nat × Nat)} {k v : Nat}
    (hpar : parentOK h f HP par) (hkv : linkOK h f HP k v) :
    parentOK h f HP (mapInsert par k v) := by
  intro u w hlk
  rw [mapLookup_mapInsert] at hlk
  by_cases huk : u = k
  · rw [if_pos huk] at hlk
    cases hlk
    rw [huk]
    exact hkv
  · rw [if_neg huk] at hlk
    exact hpar u w hlk

/-- The parent table after a `find` remains link-justified. -/
theorem cacheFind_parentOK {V : Type} {h : V → Nat} {f : V → V → Bool}
    {HP : Nat → V} {s : CacheState} {one two : Inst V}
    (ht : ∀ a b c, f a b = true → f b c = true → f a c = true)
    (hpar : parentOK h f HP s.parent) :
    parentOK h f HP (cacheFind s one two).2.parent := by
  simp only [cacheFind]
  have h1 := parentOK_insert hpar
    (chase_linkOK ht hpar (one.addr + 1) one.addr)
  exact parentOK_insert h1 (chase_linkOK ht h1 (two.addr + 1) two.addr)

theorem cacheFind_hashes {V : Type} (s : CacheState) (one two : Inst V) :
    (cacheFind s one two).2.hashes = s.hashes := rfl

/-- A `true` answer from `find` justifies the pair of arguments. -/
theorem cacheFind_true_linkOK {V : Type} {h : V → Nat} {f : V → V → Bool}
    {HP : Nat → V} {s : CacheState} {one two : Inst V}
    (hs : ∀ a b, f a b = true → f b a = true)
    (ht : ∀ a b c, f a b = true → f b c = true → f a c = true)
    (hpar : parentOK h f HP s.parent)
    (htrue : (cacheFind s one two).1 = true) :
    linkOK h f HP one.addr two.addr := by
  simp only [cacheFind, decide_eq_true_eq] at htrue
  have h1 : linkOK h f HP one.addr (chase s.parent (one.addr + 1) one.addr) :=
    chase_linkOK ht hpar (one.addr + 1) one.addr
  have hpar1 : parentOK h f HP
      (mapInsert s.parent one.addr (chase s.parent (one.addr + 1) one.addr)) :=
    parentOK_insert hpar h1
  have h2 : linkOK h f HP two.addr
      (chase (mapInsert s.parent one.addr
        (chase s.parent (one.addr + 1) one.addr)) (two.addr + 1) two.addr) :=
    chase_linkOK ht hpar1 (two.addr + 1) two.addr
  rw [← htrue] at h2
  exact linkOK_trans ht h1 (linkOK_symm hs h2)

end Sequents

namespace Sequents

theorem cacheHash_parent {V : Type} (vh : V → Nat) (s : CacheState)
    (x : Inst V) : (cacheHash vh s x).2.parent = s.parent := by
  simp only [cacheHash]
  cases mapLookup s.hashes x.addr <;> rfl

theorem cacheHash_val {V : Type} {vh : V → Nat} {HP : Nat → V}
    {s : CacheState} {x : Inst V} (hhs : hashesOK vh HP s.hashes)
    (hx : x.val = HP x.addr) : (cacheHash vh s x).1 = vh x.val := by
  simp only [cacheHash]
  cases hlk : mapLookup s.hashes x.addr with
  | none => rfl
  | some w =>
    simp only []
    rw [hhs x.addr w hlk, hx]

theorem cacheHash_hashesOK {V : Type} {vh : V → Nat} {HP : Nat → V}
    {s : CacheState} {x : Inst V} (hhs : hashesOK vh HP s.hashes)
    (hx : x.val = HP x.addr) : hashesOK vh HP (cacheHash vh s x).2.hashes := by
  simp only [cacheHash]
  cases hlk : mapLookup s.hashes x.addr with
  | some w => exact hhs
  | none =>
    simp only []
    intro u w hlk2
    rw [mapLookup_mapInsert] at hlk2
    by_cases hu : u = x.addr
    · rw [if_pos hu] at hlk2
      cases hlk2
      rw [hu, ← hx]
    · rw [if_neg hu] at hlk2
      exact hhs u w hlk2

/-- The parent table after a `join` of a hash-equal, compare-equal pair
remains link-justified. -/
theorem cacheJoin_parentOK {V : Type} {h : V → Nat} {f : V → V → Bool}
    {HP : Nat → V} {s : CacheState} {one two : Inst V}
    (hs : ∀ a b, f a b = true → f b a = true)
    (ht : ∀ a b c, f a b = true → f b c = true → f a c = true)
    (hpar : parentOK h f HP s.parent)
    (hi1 : one.val = HP one.addr) (hi2 : two.val = HP two.addr)
    (hhash : h one.val = h two.val) (hcmp : f one.val two.val = true) :
    parentOK h f HP (cacheJoin s one two).parent := by
  have h12 : linkOK h f HP one.addr two.addr := by
    right
    rw [← hi1, ← hi2]
    exact ⟨hhash, hcmp⟩
  simp only [cacheJoin]
  cases hlk1 : mapLookup s.parent one.addr with
  | some p1 =>
    simp only []
    have hl1 : linkOK h f HP one.addr p1 := hpar one.addr p1 hlk1
    cases hlk2 : mapLookup s.parent two.addr with
    | some p2 =>
      simp only []
      have hl2 : linkOK h f HP two.addr p2 := hpar two.addr p2 hlk2
      by_cases hc1 : p2 < p1
      · rw [if_pos hc1]
        exact parentOK_insert hpar (linkOK_trans ht h12 hl2)
      · rw [if_neg hc1]
        by_cases hc2 : p1 < p2
        · rw [if_pos hc2]
          exact parentOK_insert hpar
            (linkOK_trans ht (linkOK_symm hs h12) hl1)
        · rw [if_neg hc2]
          exact hpar
    | none =>
      simp only []
      have hpar2 : parentOK h f HP (mapInsert s.parent two.addr two.addr) :=
        parentOK_insert hpar (linkOK_refl h f HP two.addr)
      by_cases hc1 : two.addr < p1
      · rw [if_pos hc1]
        exact parentOK_insert hpar2 h12
      · rw [if_neg hc1]
        by_cases hc2 : p1 < two.addr
        · rw [if_pos hc2]
          exact parentOK_insert hpar2
            (linkOK_trans ht (linkOK_symm hs h12) hl1)
        · rw [if_neg hc2]
          exact hpar2
  | none =>
    simp only []
    have hpar1 : parentOK h f HP (mapInsert s.parent one.addr one.addr) :=
      parentOK_insert hpar (linkOK_refl h f HP one.addr)
    cases hlk2 : mapLookup (mapInsert s.parent one.addr one.addr) two.addr with
    | some p2 =>
      simp only []
      have hl2 : linkOK h f HP two.addr p2 := hpar1 two.addr p2 hlk2
      by_cases hc1 : p2 < one.addr
      · rw [if_pos hc1]
        exact parentOK_insert hpar1 (linkOK_trans ht h12 hl2)
      · rw [if_neg hc1]
        by_cases hc2 : one.addr < p2
        · rw [if_pos hc2]
          exact parentOK_insert hpar1 (linkOK_symm hs h12)
        · rw [if_neg hc2]
          exact hpar1
    | none =>
      simp only []
      have hpar2 : parentOK h f HP
          (mapInsert (mapInsert s.parent one.addr one.addr)
            two.addr two.addr) :=
        parentOK_insert hpar1 (linkOK_refl h f HP two.addr)
      by_cases hc1 : two.addr < one.addr
      · rw [if_pos hc1]
        exact parentOK_insert hpar2 h12
      · rw [if_neg hc1]
        by_cases hc2 : one.addr < two.addr
        · rw [if_pos hc2]
          exact parentOK_insert hpar2 (linkOK_symm hs h12)
        · rw [if_neg hc2]
          exact hpar2

theorem cacheJoin_hashes {V : Type} (s : CacheState) (one two : Inst V) :
    (cacheJoin s one two).hashes = s.hashes := by
  simp only [cacheJoin]
  cases mapLookup s.parent one.addr <;>
    [skip; simp only []] <;>
    [cases mapLookup (mapInsert s.parent one.addr one.addr) two.addr;
     cases mapLookup s.parent two.addr] <;>
    simp only [] <;>
    split <;> try split
  all_goals rfl

end Sequents

namespace Sequents

/-- `equal` preserves both cache invariants, for heap-consistent arguments. -/
theorem cacheEqual_OK {V : Type} {h : V → Nat} {f : V → V → Bool}
    {HP : Nat → V} {s : CacheState} {one two : Inst V}
    (hsym : ∀ a b, f a b = true → f b a = true)
    (htr : ∀ a b c, f a b = true → f b c = true → f a c = true)
    (hpar : parentOK h f HP s.parent) (hhs : hashesOK h HP s.hashes)
    (hi1 : one.val = HP one.addr) (hi2 : two.val = HP two.addr) :
    parentOK h f HP (cacheEqual h f s one two).2.parent
    ∧ hashesOK h HP (cacheEqual h f s one two).2.hashes := by
  simp only [cacheEqual]
  by_cases haddr : one.addr = two.addr
  · rw [if_pos haddr]
    exact ⟨hpar, hhs⟩
  · rw [if_neg haddr]
    have hfindpar : parentOK h f HP (cacheFind s one two).2.parent :=
      cacheFind_parentOK htr hpar
    have hfindhs : hashesOK h HP (cacheFind s one two).2.hashes := by
      rw [cacheFind_hashes]; exact hhs
    by_cases hfound : (cacheFind s one two).1 = true
    · simp only [hfound, if_true]
      exact ⟨hfindpar, hfindhs⟩
    · simp only [hfound, if_false, Bool.false_eq_true]
      have hh1par : parentOK h f HP
          (cacheHash h (cacheFind s one two).2 one).2.parent := by
        rw [cacheHash_parent]; exact hfindpar
      have hh1hs : hashesOK h HP
          (cacheHash h (cacheFind s one two).2 one).2.hashes :=
        cacheHash_hashesOK hfindhs hi1
      have hh2par : parentOK h f HP
          (cacheHash h (cacheHash h (cacheFind s one two).2 one).2
            two).2.parent := by
        rw [cacheHash_parent]; exact hh1par
      have hh2hs : hashesOK h HP
          (cacheHash h (cacheHash h (cacheFind s one two).2 one).2
            two).2.hashes :=
        cacheHash_hashesOK hh1hs hi2
      by_cases hne : (cacheHash h (cacheFind s one two).2 one).1
          ≠ (cacheHash h (cacheHash h (cacheFind s one two).2 one).2 two).1
      · rw [if_pos hne]
        exact ⟨hh2par, hh2hs⟩
      · rw [if_neg hne]
        by_cases hcmp : f one.val two.val = true
        · rw [if_pos hcmp]
          have hheq : h one.val = h two.val := by
            have e1 := cacheHash_val hfindhs hi1
            have e2 := cacheHash_val hh1hs hi2
            rw [Ne, not_not] at hne
            rw [← e1, ← e2, hne]
          constructor
          · exact cacheJoin_parentOK hsym htr hh2par hi1 hi2 hheq hcmp
          · rw [cacheJoin_hashes]; exact hh2hs
        · simp only [hcmp, if_false, Bool.false_eq_true]
          exact ⟨hh2par, hh2hs⟩

/-- A `true` answer from `equal` yields pure facts about the two argument
objects: either they are the same object, or their values hash equal and
compare equal. -/
theorem cacheEqual_true_fact {V : Type} {h : V → Nat} {f : V → V → Bool}
    {HP : Nat → V} {s : CacheState} {one two : Inst V}
    (hsym : ∀ a b, f a b = true → f b a = true)
    (htr : ∀ a b c, f a b = true → f b c = true → f a c = true)
    (hpar : parentOK h f HP s.parent) (hhs : hashesOK h HP s.hashes)
    (hi1 : one.val = HP one.addr) (hi2 : two.val = HP two.addr)
    (htrue : (cacheEqual h f s one two).1 = true) :
    one.addr = two.addr
    ∨ (h one.val = h two.val ∧ f one.val two.val = true) := by
  simp only [cacheEqual] at htrue
  by_cases haddr : one.addr = two.addr
  · exact Or.inl haddr
  · rw [if_neg haddr] at htrue
    by_cases hfound : (cacheFind s one two).1 = true
    · have hlk := cacheFind_true_linkOK hsym htr hpar hfound
      rcases hlk with heq | ⟨hh, hf⟩
      · exact Or.inl heq
      · right
        rw [hi1, hi2]
        exact ⟨hh, hf⟩
    · simp only [hfound, if_false, Bool.false_eq_true] at htrue
      have hfindhs : hashesOK h HP (cacheFind s one two).2.hashes := by
        rw [cacheFind_hashes]; exact hhs
      have hh1hs : hashesOK h HP
          (cacheHash h (cacheFind s one two).2 one).2.hashes :=
        cacheHash_hashesOK hfindhs hi1
      by_cases hne : (cacheHash h (cacheFind s one two).2 one).1
          ≠ (cacheHash h (cacheHash h (cacheFind s one two).2 one).2 two).1
      · rw [if_pos hne] at htrue
        simp at htrue
      · rw [if_neg hne] at htrue
        by_cases hcmp : f one.val two.val = true
        · right
          refine ⟨?_, hcmp⟩
          have e1 := cacheHash_val hfindhs hi1
          have e2 := cacheHash_val hh1hs hi2
          rw [Ne, not_not] at hne
          rw [← e1, ← e2, hne]
        · rw [if_neg hcmp] at htrue
          simp at htrue

/-- Conversely, the pure facts force `equal` to answer `true` in any state
with a consistent hash table: either the pointer-identity shortcut fires, or
the union-find lookup fires, or the hash pre-filter passes and the deep
comparison succeeds (and the pair is joined). -/
theorem cacheEqual_true_of_fact {V : Type} {h : V → Nat} {f : V → V → Bool}
    {HP : Nat → V} {s : CacheState} {one two : Inst V}
    (hhs : hashesOK h HP s.hashes)
    (hi1 : one.val = HP one.addr) (hi2 : two.val = HP two.addr)
    (hfact : one.addr = two.addr
      ∨ (h one.val = h two.val ∧ f one.val two.val = true)) :
    (cacheEqual h f s one two).1 = true := by
  simp only [cacheEqual]
  by_cases haddr : one.addr = two.addr
  · rw [if_pos haddr]
  · rw [if_neg haddr]
    rcases hfact with heq | ⟨hh, hf⟩
    · exact absurd heq haddr
    · by_cases hfound : (cacheFind s one two).1 = true
      · simp only [hfound, if_true]
      · simp only [hfound, if_false, Bool.false_eq_true]
        have hfindhs : hashesOK h HP (cacheFind s one two).2.hashes := by
          rw [cacheFind_hashes]; exact hhs
        have hh1hs : hashesOK h HP
            (cacheHash h (cacheFind s one two).2 one).2.hashes :=
          cacheHash_hashesOK hfindhs hi1
        have e1 := cacheHash_val hfindhs hi1
        have e2 := cacheHash_val hh1hs hi2
        have hne : ¬ ((cacheHash h (cacheFind s one two).2 one).1
            ≠ (cacheHash h (cacheHash h (cacheFind s one two).2 one).2
              two).1) := by
          rw [Ne, not_not, e1, e2, hh]
        rw [if_neg hne, if_pos hf]

/-- A run of heap-consistent `equal` calls preserves both cache
invariants. -/
theorem runEqualCalls_OK {V : Type} {h : V → Nat} {f : V → V → Bool}
    {HP : Nat → V}
    (hsym : ∀ a b, f a b = true → f b a = true)
    (htr : ∀ a b c, f a b = true → f b c = true → f a c = true) :
    ∀ (calls : List (Inst V × Inst V)) (s : CacheState),
    parentOK h f HP s.parent → hashesOK h HP s.hashes →
    (∀ c ∈ calls, c.1.val = HP c.1.addr ∧ c.2.val = HP c.2.addr) →
    parentOK h f HP (runEqualCalls h f calls s).parent
    ∧ hashesOK h HP (runEqualCalls h f calls s).hashes := by
  intro calls
  induction calls with
  | nil => intro s hpar hhs _; exact ⟨hpar, hhs⟩
  | cons c rest ih =>
    intro s hpar hhs hcalls
    have hc := hcalls c (List.mem_cons_self c rest)
    have hstep := cacheEqual_OK hsym htr hpar hhs hc.1 hc.2
    exact ih _ hstep.1 hstep.2
      fun d hd => hcalls d (List.mem_cons_of_mem c hd)

/-- C5: the union-find equality cache is monotone within one run.  For any
pure `value_compare` that is symmetric and transitive, any heap-consistent
starting state and arguments: once `equal(a, b)` has answered `true`, every
later `equal(a, b)` or `equal(b, a)` call — after any interleaving of
further heap-consistent `equal` calls — answers `true` again. -/
theorem C5_cacheEqual_monotone {V : Type} (h : V → Nat) (f : V → V → Bool)
    (HP : Nat → V) (a b : Inst V) (s : CacheState)
    (hsym : ∀ x y, f x y = true → f y x = true)
    (htr : ∀ x y z, f x y = true → f y z = true → f x z = true)
    (hia : a.val = HP a.addr) (hib : b.val = HP b.addr)
    (hpar : parentOK h f HP s.parent) (hhs : hashesOK h HP s.hashes)
    (hprior : (cacheEqual h f s a b).1 = true)
    (calls : List (Inst V × Inst V))
    (hcalls : ∀ c ∈ calls, c.1.val = HP c.1.addr ∧ c.2.val = HP c.2.addr) :
    (cacheEqual h f (runEqualCalls h f calls (cacheEqual h f s a b).2)
      a b).1 = true
    ∧ (cacheEqual h f (runEqualCalls h f calls (cacheEqual h f s a b).2)
      b a).1 = true := by
  have hfact := cacheEqual_true_fact hsym htr hpar hhs hia hib hprior
  have hstep := cacheEqual_OK hsym htr hpar hhs hia hib
  have hrun := runEqualCalls_OK hsym htr calls _ hstep.1 hstep.2 hcalls
  constructor
  · exact cacheEqual_true_of_fact hrun.2 hia hib hfact
  · refine cacheEqual_true_of_fact hrun.2 hib hia ?_
    rcases hfact with heq | ⟨hh, hf⟩
    · exact Or.inl heq.symm
    · exact Or.inr ⟨hh.symm, hsym _ _ hf⟩

/-- Witness for C5 at the `uintptr_t` specialization of the source
(`value_hash` is the identity, `value_compare` is value equality): after
`equal(a, b)` answered `true` from the empty cache and an unrelated call ran,
both `equal(a, b)` and `equal(b, a)` still answer `true`. -/
theorem C5_cacheEqual_monotone_witness :
    (cacheEqual id (fun x y => x == y)
      (runEqualCalls id (fun x y => x == y) [(⟨5, 7⟩, ⟨2, 9⟩)]
        (cacheEqual id (fun x y => x == y) ⟨[], []⟩
          (⟨0, 7⟩ : Inst Nat) ⟨1, 7⟩).2)
      ⟨0, 7⟩ ⟨1, 7⟩).1 = true
    ∧ (cacheEqual id (fun x y => x == y)
      (runEqualCalls id (fun x y => x == y) [(⟨5, 7⟩, ⟨2, 9⟩)]
        (cacheEqual id (fun x y => x == y) ⟨[], []⟩
          (⟨0, 7⟩ : Inst Nat) ⟨1, 7⟩).2)
      ⟨1, 7⟩ ⟨0, 7⟩).1 = true := by
  have hp : ∀ u v, mapLookup ([] : List (Nat × Nat)) u = some v →
      linkOK id (fun x y => x == y)
        (fun n => if n = 5 then 7 else if n = 2 then 9 else 7) u v := by
    intro u v hlk
    simp [mapLookup] at hlk
  have hh : ∀ u w, mapLookup ([] : List (Nat × Nat)) u = some w →
      w = id ((fun n => if n = 5 then 7 else if n = 2 then 9 else 7) u) := by
    intro u w hlk
    simp [mapLookup] at hlk
  exact C5_cacheEqual_monotone id (fun x y => x == y)
    (fun n => if n = 5 then 7 else if n = 2 then 9 else 7)
    ⟨0, 7⟩ ⟨1, 7⟩ ⟨[], []⟩
    (fun x y hxy => by
      rw [beq_iff_eq] at hxy ⊢
      exact hxy.symm)
    (fun x y z hxy hyz => by
      rw [beq_iff_eq] at hxy hyz ⊢
      exact hxy.trans hyz)
    (by decide) (by decide) hp hh (by decide)
    [(⟨5, 7⟩, ⟨2, 9⟩)] (by decide)

end Sequents

namespace Sequents

/-! ### Formulae (src/formula.hh)

A connective symbol (class Symbol built through ConnectiveSymbol, so
`is_relation` and `is_quantifier` are both false) carries a display string;
symbol equality is string equality, and Symbol::hash iterates over the
string's bytes.  The string is modelled by its UTF-8 byte sequence.
Relation and quantifier symbols are outside this embedding: the prover's
`breakdown` has no rules for them and `formulas_equal` throws on them.

A formula (class Formula in its connective variant: a symbol and a
`vector<Formula>` of children) is modelled together with the address of the
heap object holding it — the `const Formula*` used by the views' default
pointer-identity `count`, by the `&subformula == &formula[i]` tests inside
`breakdown`, and by the union-find tables. -/

structure Symbol where
  bytes : List Nat
deriving DecidableEq

/-- `True` = ConnectiveSymbol of U+22A4. -/
def TrueS : Symbol := ⟨[0xE2, 0x8A, 0xA4]⟩
/-- `False` = ConnectiveSymbol of U+22A5. -/
def FalseS : Symbol := ⟨[0xE2, 0x8A, 0xA5]⟩
/-- `Not` = ConnectiveSymbol of the tilde. -/
def NotS : Symbol := ⟨[0x7E]⟩
/-- `And` = ConnectiveSymbol of U+2227. -/
def AndS : Symbol := ⟨[0xE2, 0x88, 0xA7]⟩
/-- `Or` = ConnectiveSymbol of U+2228. -/
def OrS : Symbol := ⟨[0xE2, 0x88, 0xA8]⟩
/-- `NAnd` = ConnectiveSymbol of U+22BC. -/
def NAndS : Symbol := ⟨[0xE2, 0x8A, 0xBC]⟩
/-- `NOr` = ConnectiveSymbol of U+22BD. -/
def NOrS : Symbol := ⟨[0xE2, 0x8A, 0xBD]⟩
/-- `Xor` = ConnectiveSymbol of U+22BB. -/
def XorS : Symbol := ⟨[0xE2, 0x8A, 0xBB]⟩
/-- `NXor` = ConnectiveSymbol of U+2A5D. -/
def NXorS : Symbol := ⟨[0xE2, 0xA9, 0x9D]⟩
/-- `Equiv` = ConnectiveSymbol of U+2194. -/
def EquivS : Symbol := ⟨[0xE2, 0x86, 0x94]⟩
/-- `NEquiv` = ConnectiveSymbol of U+21AE. -/
def NEquivS : Symbol := ⟨[0xE2, 0x86, 0xAE]⟩
/-- `Impl` = ConnectiveSymbol of U+2192. -/
def ImplS : Symbol := ⟨[0xE2, 0x86, 0x92]⟩
/-- `NImpl` = ConnectiveSymbol of U+219B. -/
def NImplS : Symbol := ⟨[0xE2, 0x86, 0x9B]⟩
/-- `RImpl` = ConnectiveSymbol of U+2190. -/
def RImplS : Symbol := ⟨[0xE2, 0x86, 0x90]⟩
/-- `NRImpl` = ConnectiveSymbol of U+219A. -/
def NRImplS : Symbol := ⟨[0xE2, 0x86, 0x9A]⟩
/-- A user atom such as `ConnectiveSymbol("a")` from the tests: a connective
symbol over a single given byte. -/
def atomS (b : Nat) : Symbol := ⟨[b]⟩

/-- A connective formula: the address of its heap object, its symbol, and
its children. -/
inductive Formula where
  | node (addr : Nat) (sym : Symbol) (children : List Formula)

mutual
def beqF : Formula → Formula → Bool
  | .node i s xs, .node j t ys => i == j && s == t && beqFList xs ys

def beqFList : List Formula → List Formula → Bool
  | [], [] => true
  | x :: xs, y :: ys => beqF x y && beqFList xs ys
  | _, _ => false
end

mutual
theorem beqF_iff : ∀ a b : Formula, beqF a b = true ↔ a = b
  | .node i s xs, .node j t ys => by
    simp only [beqF, Bool.and_eq_true, beq_iff_eq]
    rw [beqFList_iff xs ys]
    constructor
    · rintro ⟨⟨rfl, rfl⟩, rfl⟩; rfl
    · intro h; cases h; exact ⟨⟨rfl, rfl⟩, rfl⟩

theorem beqFList_iff : ∀ xs ys : List Formula, beqFList xs ys = true ↔ xs = ys
  | [], [] => by simp [beqFList]
  | [], _ :: _ => by simp [beqFList]
  | _ :: _, [] => by simp [beqFList]
  | x :: xs, y :: ys => by
    simp only [beqFList, Bool.and_eq_true]
    rw [beqF_iff x y, beqFList_iff xs ys]
    constructor
    · rintro ⟨rfl, rfl⟩; rfl
    · intro h; cases h; exact ⟨rfl, rfl⟩
end

instance : DecidableEq Formula := fun a b =>
  decidable_of_iff (beqF a b = true) (beqF_iff a b)

def Formula.addr : Formula → Nat
  | .node a _ _ => a

def Formula.sym : Formula → Symbol
  | .node _ s _ => s

def Formula.children : Formula → List Formula
  | .node _ _ ch => ch

mutual
/-- `Formula::total_size` (src/formula.hh lines 872-897): the number of
nodes of the formula tree. -/
def totalSize : Formula → Nat
  | .node _ _ ch => 1 + totalSizeList ch

def totalSizeList : List Formula → Nat
  | [] => 0
  | f :: fs => totalSize f + totalSizeList fs
end

mutual
/-- `Formula::operator==` (src/formula.hh lines 450-479): the pointer
shortcut `this == &that`, then symbol equality, then `vector<Formula>`
equality (same length, elementwise `operator==`). -/
def structEq : Formula → Formula → Bool
  | .node i s xs, .node j t ys =>
    (i == j) || ((s == t) && structEqList xs ys)

def structEqList : List Formula → List Formula → Bool
  | [], [] => true
  | x :: xs, y :: ys => structEq x y && structEqList xs ys
  | _, _ => false
end

/-- `Formula::operator[]` for the connective variant (src/formula.hh lines
513-527): the child at the index, throwing FormulaIndexError (no value) when
the index is out of range. -/
def childAt (f : Formula) (i : Nat) : Option Formula :=
  f.children.get? i

/-- `Unfold<Formula>::count` with the default pointer-identity predicate
(src/collections.hh lines 1743-1756): the number of positions holding the
same heap object. -/
def countAddr (l : List Formula) (f : Formula) : Nat :=
  (l.filter fun g => g.addr == f.addr).length

/-- `left - Singleton<Formula>(formula)` (Difference over a singleton with
pointer identity, src/collections.hh lines 819-843): the elements whose
object is not the given one. -/
def removeAddr (l : List Formula) (f : Formula) : List Formula :=
  l.filter fun g => !(g.addr == f.addr)

/-- `Sequent::guide_positive` (src/sequent.hh lines 57-60). -/
def guidePositive (f : Formula) : Nat := totalSize f

/-- `Sequent::guide_negative` (src/sequent.hh lines 62-65). -/
def guideNegative (f : Formula) : Nat := totalSize f

/-- `Sequent::guide_equal` (src/sequent.hh lines 67-70):
`(|p| + |q|) * (1 + abs(|p| - |q|))`, an exact integer also as a C++
`float` for the sizes arising here. -/
def guideEqual (p q : Formula) : Nat :=
  (totalSize p + totalSize q)
    * (1 + (if totalSize p ≤ totalSize q then totalSize q - totalSize p
            else totalSize p - totalSize q))

/-- Descending-key counterpart of `sortByKey`, for the one sort in the
source keyed by a negated weight (`-guide_equal`, src/sequent.hh line 277). -/
def insertByKeyDown {α : Type} (key : α → Nat) (x : α) : List α → List α
  | [] => [x]
  | y :: ys =>
    if key y ≤ key x then x :: y :: ys else y :: insertByKeyDown key x ys

def sortByKeyDown {α : Type} (key : α → Nat) : List α → List α
  | [] => []
  | x :: xs => insertByKeyDown key x (sortByKeyDown key xs)

theorem insertByKeyDown_perm {α : Type} (key : α → Nat) (x : α) (l : List α) :
    List.Perm (insertByKeyDown key x l) (x :: l) := by
  induction l with
  | nil => simp [insertByKeyDown]
  | cons y ys ih =>
    simp only [insertByKeyDown]
    by_cases h : key y ≤ key x
    · simp [h]
    · simp only [h, if_neg, ite_false]
      exact List.Perm.trans (List.Perm.cons y ih) (List.Perm.swap x y ys)

theorem sortByKeyDown_perm {α : Type} (key : α → Nat) (l : List α) :
    List.Perm (sortByKeyDown key l) l := by
  induction l with
  | nil => simp [sortByKeyDown]
  | cons x xs ih =>
    exact List.Perm.trans (insertByKeyDown_perm key x (sortByKeyDown key xs))
      (List.Perm.cons x ih)

/-- The eight symbols the source treats as commutative
(src/sequent.hh line 238). -/
def commutativeSymbols : List Symbol :=
  [AndS, OrS, NAndS, NOrS, XorS, NXorS, EquivS, NEquivS]

/-- The four symbols the source treats as idempotent
(src/sequent.hh line 239). -/
def idempotentSymbols : List Symbol := [AndS, OrS, NAndS, NOrS]

end Sequents

namespace Sequents

theorem mem_sortByKeyDown {α : Type} {key : α → Nat} {x : α} {l : List α}
    (h : x ∈ sortByKeyDown key l) : x ∈ l :=
  (sortByKeyDown_perm key l).mem_iff.mp h

theorem totalSize_pos (f : Formula) : 0 < totalSize f := by
  cases f with
  | node a s ch => simp [totalSize]

theorem totalSize_le_totalSizeList_of_mem {f : Formula} {l : List Formula}
    (h : f ∈ l) : totalSize f ≤ totalSizeList l := by
  induction l with
  | nil => cases h
  | cons g gs ih =>
    rcases List.mem_cons.mp h with rfl | h'
    · simp only [totalSizeList]
      exact Nat.le_add_right _ _
    · simp only [totalSizeList]
      exact Nat.le_trans (ih h') (Nat.le_add_left _ _)

theorem totalSize_lt_node {f : Formula} {a : Nat} {s : Symbol}
    {ch : List Formula} (h : f ∈ ch) :
    totalSize f < totalSize (Formula.node a s ch) := by
  have := totalSize_le_totalSizeList_of_mem h
  simp only [totalSize]
  omega

/-- `Sequent::formulas_equal` (src/sequent.hh lines 236-292), inner
recursion: the pure structural-equality oracle modulo the source's
commutativity and idempotence treatment, as used when the union-find cache
is disabled.  In order: symbol inequality is `false`; `first == second`
(structural equality) is `true`; for a commutative symbol, a non-idempotent
symbol additionally requires equal child counts, and then the check is
mutual inclusion (each child of the one has an `equal` partner among the
children of the other, scanning the partners in ascending `guide_equal`
order); for the remaining connective symbols the children are compared
pairwise over the zip of the two child vectors, scanned in descending
`guide_equal` order.  (The relation and quantifier branches of the source
throw and are outside this embedding.)

The source recursion terminates because every recursive comparison is of a
pair of children with strictly smaller combined `total_size`; here the
recursion is bounded by a fuel which `formulasEqual` initializes to the
combined size of the two formulae.  Since each recursive pair's combined
size is at least two smaller while the fuel drops by one, the fuel is never
exhausted (the fuel-zero branch is unreachable from `formulasEqual`). -/
def feCore : Nat → Formula → Formula → Bool
  | 0, _, _ => false
  | n + 1, .node i s xs, .node j t ys =>
    if s ≠ t then false
    else if structEq (.node i s xs) (.node j t ys) then true
    else if s ∈ commutativeSymbols then
      if s ∉ idempotentSymbols ∧ xs.length ≠ ys.length then false
      else
        ((xs.all fun x =>
          (sortByKey (fun y2 => guideEqual x y2) ys).any fun y =>
            feCore n x y)
          &&
          (ys.all fun y =>
            (sortByKey (fun x2 => guideEqual y x2) xs).any fun x =>
              feCore n y x))
    else
      if xs.length ≠ ys.length then false
      else
        (sortByKeyDown (fun p => guideEqual p.1 p.2) (xs.zip ys)).all
          fun p => feCore n p.1 p.2

/-- `Sequent::formulas_equal`: the recursion above at its exact fuel. -/
def formulasEqual (a b : Formula) : Bool :=
  feCore (totalSize a + totalSize b) a b

end Sequents

namespace Sequents

/-- Enumeration order of `Cartesian<A, B>` (src/collections.hh lines
1005-1010): position `k` holds the pair `(A[k % a], B[k / a])`, so the first
component varies fastest. -/
def cartesianPairs (γ δ : List Formula) : List (Formula × Formula) :=
  δ.flatMap fun q => γ.map fun p => (p, q)

/-- The mutual recursion of `Sequent::prove` and `Sequent::breakdown`
(src/sequent.hh lines 79-225 and 328-341), with the union-find cache
disabled (`usecache = false`, so `Sequent::equal` is `formulas_equal`),
built by structural recursion on the fuel so that the kernel can evaluate
it: level `n + 1` packages the breakdown function whose sub-proofs run at
level `n`, and the prove function that uses that breakdown function.
`prove` and `breakdown` below are its two components.

The breakdown body follows the source's `switch` cases verbatim,
including: the formula is looked up on the left side first, then on the
right, by the views' pointer-identity `count`; the context without the
formula is the `Difference` view `side - Singleton(formula)`; the
`for_any` over the subformulae of an implication dispatches on
`&subformula == &formula[k]` (address comparison, with the source's lazy
evaluation order of `formula[0]` / `formula[1]`, where an out-of-range
child access throws and thus yields no result); the premise contexts of
the right-side NRImpl and NImpl cases are `right_sans_formula` and
`right` — not `left`; the children of Or/NAnd/And/NOr are sorted by
`guide_negative` / `guide_positive`; any other symbol returns `false`
(the UnsupportedConnectiveError throw is commented out in the source);
and the final RuntimeError for a formula on neither side yields no
result.

The prove body is the short-circuit disjunction of the empty-sequent
axiom, the search for an `equal` pair in the Cartesian view
`left * right` sorted by `guide_equal`, and the search for a successful
`breakdown` over the view `left + right` sorted by the polarity key. -/
def proveCore : Nat →
    ((List Formula → List Formula → Option Bool)
      × (List Formula → List Formula → Formula → Option Bool))
  | 0 => (fun _ _ => none, fun _ _ _ => none)
  | n + 1 =>
    let prev := proveCore n
    let bd : List Formula → List Formula → Formula → Option Bool :=
      fun γ δ f =>
      if 0 < countAddr γ f then
        let γm := removeAddr γ f
        if f.sym = TrueS then prev.1 γm δ
        else if f.sym = FalseS then some true
        else if f.sym = NotS then
          match childAt f 0 with
          | none => none
          | some x => prev.1 γm (δ ++ [x])
        else if f.sym = RImplS then
          oAny (fun c =>
            match childAt f 0 with
            | none => none
            | some x =>
              if c.addr = x.addr then prev.1 (γm ++ [x]) δ
              else
                match childAt f 1 with
                | none => none
                | some y =>
                  if c.addr = y.addr then prev.1 γm (δ ++ [y]) else none)
            f.children
        else if f.sym = ImplS then
          oAny (fun c =>
            match childAt f 1 with
            | none => none
            | some y =>
              if c.addr = y.addr then prev.1 (γm ++ [y]) δ
              else
                match childAt f 0 with
                | none => none
                | some x =>
                  if c.addr = x.addr then prev.1 γm (δ ++ [x]) else none)
            f.children
        else if f.sym = NRImplS then
          match childAt f 0, childAt f 1 with
          | some x, some y => prev.1 (γm ++ [x]) (δ ++ [y])
          | _, _ => none
        else if f.sym = NImplS then
          match childAt f 0, childAt f 1 with
          | some x, some y => prev.1 (γm ++ [y]) (δ ++ [x])
          | _, _ => none
        else if f.sym = AndS then prev.1 (γm ++ f.children) δ
        else if f.sym = OrS then
          oAll (fun c => prev.1 (γm ++ [c]) δ)
            (sortByKey guideNegative f.children)
        else if f.sym = NOrS then prev.1 γm (δ ++ f.children)
        else if f.sym = NAndS then
          oAll (fun c => prev.1 γm (δ ++ [c]))
            (sortByKey guidePositive f.children)
        else some false
      else if 0 < countAddr δ f then
        let δm := removeAddr δ f
        if f.sym = FalseS then prev.1 γ δm
        else if f.sym = TrueS then some true
        else if f.sym = NotS then
          match childAt f 0 with
          | none => none
          | some x => prev.1 (γ ++ [x]) δm
        else if f.sym = NRImplS then
          oAny (fun c =>
            match childAt f 0 with
            | none => none
            | some x =>
              if c.addr = x.addr then prev.1 (δm ++ [x]) δ
              else
                match childAt f 1 with
                | none => none
                | some y =>
                  if c.addr = y.addr then prev.1 δm (δ ++ [y]) else none)
            f.children
        else if f.sym = NImplS then
          oAny (fun c =>
            match childAt f 1 with
            | none => none
            | some y =>
              if c.addr = y.addr then prev.1 (δm ++ [y]) δ
              else
                match childAt f 0 with
                | none => none
                | some x =>
                  if c.addr = x.addr then prev.1 δm (δ ++ [x]) else none)
            f.children
        else if f.sym = ImplS then
          match childAt f 0, childAt f 1 with
          | some x, some y => prev.1 (γ ++ [x]) (δm ++ [y])
          | _, _ => none
        else if f.sym = RImplS then
          match childAt f 0, childAt f 1 with
          | some x, some y => prev.1 (γ ++ [y]) (δm ++ [x])
          | _, _ => none
        else if f.sym = OrS then prev.1 γ (δm ++ f.children)
        else if f.sym = AndS then
          oAll (fun c => prev.1 γ (δm ++ [c]))
            (sortByKey guidePositive f.children)
        else if f.sym = NAndS then prev.1 (γ ++ f.children) δm
        else if f.sym = NOrS then
          oAll (fun c => prev.1 (γ ++ [c]) δm)
            (sortByKey guideNegative f.children)
        else some false
      else none
    let pv : List Formula → List Formula → Option Bool := fun γ δ =>
      if γ.length = 0 ∧ δ.length = 0 then some true
      else if (sortByKey (fun pq => guideEqual pq.1 pq.2)
          (cartesianPairs γ δ)).any (fun pq => formulasEqual pq.1 pq.2) then
        some true
      else
        oAny (fun f => bd γ δ f)
          (sortByKey
            (fun f => (if 0 < countAddr γ f then guideNegative f else 0)
              + (if 0 < countAddr δ f then guidePositive f else 0))
            (γ ++ δ))
    (pv, bd)

/-- `Sequent::prove` (src/sequent.hh lines 328-341) at the given fuel: the
first component of `proveCore`.  The fuel bounds the recursion depth;
`none` means no Boolean result within the fuel. -/
def prove (n : Nat) : List Formula → List Formula → Option Bool :=
  (proveCore n).1

/-- `Sequent::breakdown` (src/sequent.hh lines 79-225) whose sub-proofs run
at the given fuel: the breakdown component packaged with `prove (n + 1)`,
so that `prove (n + 1)` tries exactly `breakdown n` on its candidates. -/
def breakdown (n : Nat) : List Formula → List Formula → Formula →
    Option Bool :=
  (proveCore (n + 1)).2


theorem breakdown_eq (n : Nat) (γ δ : List Formula) (f : Formula) :
    breakdown n γ δ f =
      (
      if 0 < countAddr γ f then
        let γm := removeAddr γ f
        if f.sym = TrueS then prove n γm δ
        else if f.sym = FalseS then some true
        else if f.sym = NotS then
          match childAt f 0 with
          | none => none
          | some x => prove n γm (δ ++ [x])
        else if f.sym = RImplS then
          oAny (fun c =>
            match childAt f 0 with
            | none => none
            | some x =>
              if c.addr = x.addr then prove n (γm ++ [x]) δ
              else
                match childAt f 1 with
                | none => none
                | some y =>
                  if c.addr = y.addr then prove n γm (δ ++ [y]) else none)
            f.children
        else if f.sym = ImplS then
          oAny (fun c =>
            match childAt f 1 with
            | none => none
            | some y =>
              if c.addr = y.addr then prove n (γm ++ [y]) δ
              else
                match childAt f 0 with
                | none => none
                | some x =>
                  if c.addr = x.addr then prove n γm (δ ++ [x]) else none)
            f.children
        else if f.sym = NRImplS then
          match childAt f 0, childAt f 1 with
          | some x, some y => prove n (γm ++ [x]) (δ ++ [y])
          | _, _ => none
        else if f.sym = NImplS then
          match childAt f 0, childAt f 1 with
          | some x, some y => prove n (γm ++ [y]) (δ ++ [x])
          | _, _ => none
        else if f.sym = AndS then prove n (γm ++ f.children) δ
        else if f.sym = OrS then
          oAll (fun c => prove n (γm ++ [c]) δ)
            (sortByKey guideNegative f.children)
        else if f.sym = NOrS then prove n γm (δ ++ f.children)
        else if f.sym = NAndS then
          oAll (fun c => prove n γm (δ ++ [c]))
            (sortByKey guidePositive f.children)
        else some false
      else if 0 < countAddr δ f then
        let δm := removeAddr δ f
        if f.sym = FalseS then prove n γ δm
        else if f.sym = TrueS then some true
        else if f.sym = NotS then
          match childAt f 0 with
          | none => none
          | some x => prove n (γ ++ [x]) δm
        else if f.sym = NRImplS then
          oAny (fun c =>
            match childAt f 0 with
            | none => none
            | some x =>
              if c.addr = x.addr then prove n (δm ++ [x]) δ
              else
                match childAt f 1 with
                | none => none
                | some y =>
                  if c.addr = y.addr then prove n δm (δ ++ [y]) else none)
            f.children
        else if f.sym = NImplS then
          oAny (fun c =>
            match childAt f 1 with
            | none => none
            | some y =>
              if c.addr = y.addr then prove n (δm ++ [y]) δ
              else
                match childAt f 0 with
                | none => none
                | some x =>
                  if c.addr = x.addr then prove n δm (δ ++ [x]) else none)
            f.children
        else if f.sym = ImplS then
          match childAt f 0, childAt f 1 with
          | some x, some y => prove n (γ ++ [x]) (δm ++ [y])
          | _, _ => none
        else if f.sym = RImplS then
          match childAt f 0, childAt f 1 with
          | some x, some y => prove n (γ ++ [y]) (δm ++ [x])
          | _, _ => none
        else if f.sym = OrS then prove n γ (δm ++ f.children)
        else if f.sym = AndS then
          oAll (fun c => prove n γ (δm ++ [c]))
            (sortByKey guidePositive f.children)
        else if f.sym = NAndS then prove n (γ ++ f.children) δm
        else if f.sym = NOrS then
          oAll (fun c => prove n (γ ++ [c]) δm)
            (sortByKey guideNegative f.children)
        else some false
      else none
      ) := rfl

theorem prove_zero (γ δ : List Formula) : prove 0 γ δ = none := rfl

theorem prove_succ (n : Nat) (γ δ : List Formula) :
    prove (n + 1) γ δ =
      (if γ.length = 0 ∧ δ.length = 0 then some true
       else if (sortByKey (fun pq => guideEqual pq.1 pq.2)
           (cartesianPairs γ δ)).any (fun pq => formulasEqual pq.1 pq.2) then
         some true
       else
         oAny (fun f => breakdown n γ δ f)
           (sortByKey
             (fun f => (if 0 < countAddr γ f then guideNegative f else 0)
               + (if 0 < countAddr δ f then guidePositive f else 0))
             (γ ++ δ))) := rfl

end Sequents

namespace Sequents

theorem mem_cartesianPairs {γ δ : List Formula} {p q : Formula} :
    (p, q) ∈ cartesianPairs γ δ ↔ p ∈ γ ∧ q ∈ δ := by
  simp only [cartesianPairs, List.mem_flatMap, List.mem_map]
  constructor
  · rintro ⟨q', hq', p', hp', heq⟩
    cases heq
    exact ⟨hp', hq'⟩
  · rintro ⟨hp, hq⟩
    exact ⟨q, hq, p, hp, rfl⟩

/-- C1: with the result of `prove` in hand, it is `true` exactly when the
sequent is empty, or some pair of the Cartesian view `Γ × Δ` satisfies the
equality oracle, or `breakdown` succeeds on some formula of the concatenated
view `Γ + Δ`; in every other case `prove` returns `false`. -/
theorem C1_prove_characterization (n : Nat) (γ δ : List Formula) (b : Bool)
    (h : prove (n + 1) γ δ = some b) :
    b = true ↔
      ((γ = [] ∧ δ = [])
        ∨ (∃ p ∈ γ, ∃ q ∈ δ, formulasEqual p q = true)
        ∨ (∃ f ∈ γ ++ δ, breakdown n γ δ f = some true)) := by
  rw [prove_succ] at h
  by_cases h1 : γ.length = 0 ∧ δ.length = 0
  · rw [if_pos h1] at h
    cases h
    simp only [true_iff]
    exact Or.inl ⟨List.length_eq_zero.mp h1.1, List.length_eq_zero.mp h1.2⟩
  · rw [if_neg h1] at h
    by_cases h2 : (sortByKey (fun pq => guideEqual pq.1 pq.2)
        (cartesianPairs γ δ)).any (fun pq => formulasEqual pq.1 pq.2) = true
    · rw [if_pos h2] at h
      cases h
      simp only [true_iff]
      obtain ⟨pq, hmem, hpq⟩ := List.any_eq_true.mp h2
      have hmem' := mem_sortByKey hmem
      obtain ⟨hp, hq⟩ := mem_cartesianPairs.mp
        (show (pq.1, pq.2) ∈ cartesianPairs γ δ from hmem')
      exact Or.inr (Or.inl ⟨pq.1, hp, pq.2, hq, hpq⟩)
    · rw [if_neg h2] at h
      cases b with
      | true =>
        simp only [true_iff]
        obtain ⟨f, hmem, hf⟩ := oAny_eq_some_true h
        exact Or.inr (Or.inr ⟨f, mem_sortByKey hmem, hf⟩)
      | false =>
        simp only [Bool.false_eq_true, false_iff]
        rintro (⟨hγ, hδ⟩ | ⟨p, hp, q, hq, hpq⟩ | ⟨f, hf, hbd⟩)
        · exact h1 ⟨by rw [hγ]; rfl, by rw [hδ]; rfl⟩
        · apply h2
          apply List.any_eq_true.mpr
          exact ⟨(p, q), mem_sortByKey_of_mem (mem_cartesianPairs.mpr ⟨hp, hq⟩),
            hpq⟩
        · have := oAny_eq_some_false h f (mem_sortByKey_of_mem hf)
          rw [this] at hbd
          cases hbd

/-- Witness for C1 at the initial sequent `a ⊢ a` over two distinct atom
objects, provable by the equal-pair disjunct. -/
theorem C1_prove_characterization_witness :
    true = true ↔
      (([Formula.node 1 (atomS 0x61) []] = ([] : List Formula)
          ∧ [Formula.node 2 (atomS 0x61) []] = ([] : List Formula))
        ∨ (∃ p ∈ [Formula.node 1 (atomS 0x61) []],
            ∃ q ∈ [Formula.node 2 (atomS 0x61) []],
            formulasEqual p q = true)
        ∨ (∃ f ∈ [Formula.node 1 (atomS 0x61) []]
            ++ [Formula.node 2 (atomS 0x61) []],
            breakdown 0 [Formula.node 1 (atomS 0x61) []]
              [Formula.node 2 (atomS 0x61) []] f = some true)) :=
  C1_prove_characterization 0 [Formula.node 1 (atomS 0x61) []]
    [Formula.node 2 (atomS 0x61) []] true (by rfl)

end Sequents

namespace Sequents

/-- The symbols with an implemented `breakdown` rule on at least one side
(the `case` labels of the two switches in src/sequent.hh lines 93-151 and
161-219). -/
def handledSymbols : List Symbol :=
  [TrueS, FalseS, NotS, AndS, OrS, NAndS, NOrS, ImplS, RImplS, NImplS,
    NRImplS]

/-- C8 counterexample: the claim says that when `breakdown` selects a
formula whose top symbol has no implemented rule, the condition surfaces to
the caller of `prove` as a typed error.  The code's `default:` case has its
UnsupportedConnectiveError throw commented out and returns `false` instead:
on the sequent `Xor(a, b) ⊢` both `breakdown` and `prove` return the
Boolean `false`, not an error. -/
theorem C8_unsupported_connective_counterexample :
    breakdown 1
      [Formula.node 1 XorS
        [Formula.node 2 (atomS 0x61) [], Formula.node 3 (atomS 0x62) []]] []
      (Formula.node 1 XorS
        [Formula.node 2 (atomS 0x61) [], Formula.node 3 (atomS 0x62) []])
      = some false
    ∧ prove 2
      [Formula.node 1 XorS
        [Formula.node 2 (atomS 0x61) [], Formula.node 3 (atomS 0x62) []]] []
      = some false
    ∧ (some false ≠ (none : Option Bool)) := by
  refine ⟨by decide, by decide, by decide⟩

/-- C8 amended: `breakdown` on a formula present on either side whose top
symbol is not among the handled connectives returns the value `false` — the
premise-less default of the rules table — rather than raising an error (the
UnsupportedConnectiveError throw is commented out in the source). -/
theorem C8_unsupported_connective_returns_false (n : Nat)
    (γ δ : List Formula) (f : Formula)
    (hside : 0 < countAddr γ f ∨ 0 < countAddr δ f)
    (hsym : f.sym ∉ handledSymbols) :
    breakdown n γ δ f = some false := by
  simp only [handledSymbols, List.mem_cons, List.not_mem_nil, or_false,
    not_or] at hsym
  obtain ⟨hT, hF, hN, hA, hO, hNA, hNO, hI, hRI, hNI, hNRI⟩ := hsym
  rw [breakdown_eq]
  by_cases hγ : 0 < countAddr γ f
  · rw [if_pos hγ]
    simp only [if_neg hT, if_neg hF, if_neg hN, if_neg hRI, if_neg hI,
      if_neg hNRI, if_neg hNI, if_neg hA, if_neg hO, if_neg hNO, if_neg hNA]
  · rcases hside with h | hδ
    · exact absurd h hγ
    · rw [if_neg hγ, if_pos hδ]
      simp only [if_neg hT, if_neg hF, if_neg hN, if_neg hRI, if_neg hI,
        if_neg hNRI, if_neg hNI, if_neg hA, if_neg hO, if_neg hNO,
        if_neg hNA]

/-- Witness for the C8 amended theorem at the `Xor(a, b) ⊢` instance. -/
theorem C8_unsupported_connective_returns_false_witness :
    breakdown 3
      [Formula.node 1 XorS
        [Formula.node 2 (atomS 0x61) [], Formula.node 3 (atomS 0x62) []]] []
      (Formula.node 1 XorS
        [Formula.node 2 (atomS 0x61) [], Formula.node 3 (atomS 0x62) []])
      = some false :=
  C8_unsupported_connective_returns_false 3 _ [] _ (Or.inl (by decide))
    (by decide)

end Sequents

namespace Sequents

/-- The relation asserted by the claim for C4: two formulae are "the same
modulo commutativity and idempotence of the AC-connectives", i.e. the least
congruence (over the formula structure, ignoring object addresses)
containing argument permutation and argument duplication for each of the
eight AC-connectives And, Or, NAnd, NOr, Xor, NXor, Equiv, NEquiv. -/
inductive ACIEq : Formula → Formula → Prop where
  | congr (i j : Nat) (s : Symbol) (xs ys : List Formula) :
      List.Forall₂ ACIEq xs ys →
      ACIEq (Formula.node i s xs) (Formula.node j s ys)
  | perm (i j : Nat) (s : Symbol) (xs ys : List Formula) :
      s ∈ commutativeSymbols → List.Perm xs ys →
      ACIEq (Formula.node i s xs) (Formula.node j s ys)
  | idem (i j : Nat) (s : Symbol) (x : Formula) (xs : List Formula) :
      s ∈ commutativeSymbols →
      ACIEq (Formula.node i s (x :: xs)) (Formula.node j s (x :: x :: xs))
  | symm {a b : Formula} : ACIEq a b → ACIEq b a
  | trans {a b c : Formula} : ACIEq a b → ACIEq b c → ACIEq a c

theorem structEq_refl (f : Formula) : structEq f f = true := by
  cases f with
  | node i s xs => simp [structEq]

theorem feCore_refl (m : Nat) (f : Formula) (hm : 0 < m) :
    feCore m f f = true := by
  obtain ⟨k, rfl⟩ := Nat.exists_eq_succ_of_ne_zero (Nat.pos_iff_ne_zero.mp hm)
  cases f with
  | node i s xs =>
    simp only [feCore]
    rw [if_neg (by simp : ¬ s ≠ s), if_pos (structEq_refl (.node i s xs))]

/-- C4 counterexample: `Xor(a, a, b)` and `Xor(a, b)` are the same modulo
commutativity and idempotence of the AC-connectives (Xor is one of the
eight), yet `formulas_equal` answers `false`, because for the commutative
but non-idempotent symbols (Xor, NXor, Equiv, NEquiv) the source requires
equal argument counts before the mutual-inclusion check. -/
theorem C4_xor_idempotence_counterexample :
    ACIEq
      (Formula.node 1 XorS
        [Formula.node 2 (atomS 0x61) [], Formula.node 3 (atomS 0x61) [],
          Formula.node 4 (atomS 0x62) []])
      (Formula.node 5 XorS
        [Formula.node 6 (atomS 0x61) [], Formula.node 7 (atomS 0x62) []])
    ∧ formulasEqual
      (Formula.node 1 XorS
        [Formula.node 2 (atomS 0x61) [], Formula.node 3 (atomS 0x61) [],
          Formula.node 4 (atomS 0x62) []])
      (Formula.node 5 XorS
        [Formula.node 6 (atomS 0x61) [], Formula.node 7 (atomS 0x62) []])
      = false := by
  constructor
  · have hxor : XorS ∈ commutativeSymbols := by decide
    have hatom : ∀ u v : Nat, ∀ s : Symbol,
        ACIEq (Formula.node u s []) (Formula.node v s []) := fun u v s =>
      ACIEq.congr u v s [] [] List.Forall₂.nil
    have h1 : ACIEq
        (Formula.node 1 XorS
          [Formula.node 2 (atomS 0x61) [], Formula.node 3 (atomS 0x61) [],
            Formula.node 4 (atomS 0x62) []])
        (Formula.node 1 XorS
          [Formula.node 2 (atomS 0x61) [], Formula.node 2 (atomS 0x61) [],
            Formula.node 4 (atomS 0x62) []]) :=
      ACIEq.congr _ _ _ _ _
        (List.Forall₂.cons (hatom 2 2 _)
          (List.Forall₂.cons (hatom 3 2 _)
            (List.Forall₂.cons (hatom 4 4 _) List.Forall₂.nil)))
    have h2 : ACIEq
        (Formula.node 1 XorS
          [Formula.node 2 (atomS 0x61) [], Formula.node 2 (atomS 0x61) [],
            Formula.node 4 (atomS 0x62) []])
        (Formula.node 5 XorS
          [Formula.node 2 (atomS 0x61) [], Formula.node 4 (atomS 0x62) []]) :=
      ACIEq.symm (ACIEq.idem 5 1 XorS (Formula.node 2 (atomS 0x61) [])
        [Formula.node 4 (atomS 0x62) []] hxor)
    have h3 : ACIEq
        (Formula.node 5 XorS
          [Formula.node 2 (atomS 0x61) [], Formula.node 4 (atomS 0x62) []])
        (Formula.node 5 XorS
          [Formula.node 6 (atomS 0x61) [], Formula.node 7 (atomS 0x62) []]) :=
      ACIEq.congr _ _ _ _ _
        (List.Forall₂.cons (hatom 2 6 _)
          (List.Forall₂.cons (hatom 4 7 _) List.Forall₂.nil))
    exact ACIEq.trans h1 (ACIEq.trans h2 h3)
  · decide

/-- C4 amended: permuting the arguments of an AC-connective preserves the
oracle: if the children of the one node are a permutation (as heap objects)
of the children of the other and the shared symbol is one of the eight
commutative symbols, `formulas_equal` answers `true`.  (The counterexample
shows that the stronger claim — coincidence with equality modulo
commutativity and idempotence of all eight — fails for the non-idempotent
four, where equal argument counts are required.) -/
theorem C4_ac_permutation_equal (i j : Nat) (s : Symbol)
    (xs ys : List Formula) (hs : s ∈ commutativeSymbols)
    (hperm : List.Perm xs ys) :
    formulasEqual (Formula.node i s xs) (Formula.node j s ys) = true := by
  have hN1 := totalSize_pos (Formula.node i s xs)
  have hN2 := totalSize_pos (Formula.node j s ys)
  rw [formulasEqual]
  obtain ⟨m, hm, hmpos⟩ : ∃ m, totalSize (Formula.node i s xs)
      + totalSize (Formula.node j s ys) = m + 1 ∧ 0 < m := by
    refine ⟨totalSize (Formula.node i s xs)
      + totalSize (Formula.node j s ys) - 1, by omega, by omega⟩
  rw [hm]
  simp only [feCore]
  rw [if_neg (by simp : ¬ s ≠ s)]
  by_cases hse : structEq (Formula.node i s xs) (Formula.node j s ys) = true
  · rw [if_pos hse]
  · rw [if_neg hse, if_pos hs]
    rw [if_neg (by
      rintro ⟨_, hlen⟩
      exact hlen hperm.length_eq)]
    rw [Bool.and_eq_true]
    constructor
    · apply List.all_eq_true.mpr
      intro x hx
      apply List.any_eq_true.mpr
      exact ⟨x, mem_sortByKey_of_mem (hperm.subset hx), feCore_refl m x hmpos⟩
    · apply List.all_eq_true.mpr
      intro y hy
      apply List.any_eq_true.mpr
      exact ⟨y, mem_sortByKey_of_mem (hperm.symm.subset hy),
        feCore_refl m y hmpos⟩

/-- Witness for the C4 amended theorem: `Xor(a, b)` against `Xor(b, a)`
built over the same two child objects in swapped order. -/
theorem C4_ac_permutation_equal_witness :
    formulasEqual
      (Formula.node 100 XorS
        [Formula.node 101 (atomS 0x61) [], Formula.node 102 (atomS 0x62) []])
      (Formula.node 103 XorS
        [Formula.node 102 (atomS 0x62) [], Formula.node 101 (atomS 0x61) []])
      = true :=
  C4_ac_permutation_equal 100 103 XorS _ _ (by decide)
    (List.Perm.swap _ _ [])

end Sequents

namespace Sequents

theorem oAny_pair {α β : Type} (f : α → Option Bool) (g : β → Option Bool)
    (a1 a2 : α) (b1 b2 : β) (h1 : f a1 = g b1) (h2 : f a2 = g b2) :
    oAny f [a1, a2] = oAny g [b1, b2] := by
  simp only [oAny, h1, h2]

/-- The premise sequents passed to `sub_prove` by the right-side NImpl case
of `breakdown` (src/sequent.hh lines 182-190), in the order the children
`x = formula[0]`, `y = formula[1]` are iterated: the `x` child yields the
premise `(right_sans_formula, right + x)` and the `y` child yields
`(right_sans_formula + y, right)`.  Both left contexts are built from
`right_sans_formula` (the right side without the formula); the original
left side of the sequent does not appear. -/
def nimplRightPremises (δ : List Formula) (f : Formula) :
    Option (List (List Formula × List Formula)) :=
  match childAt f 0, childAt f 1 with
  | some x, some y =>
    some [(removeAddr δ f, δ ++ [x]), (removeAddr δ f ++ [y], δ)]
  | _, _ => none

/-- Likewise for the right-side NRImpl case (src/sequent.hh lines 172-180):
the `x` child yields `(right_sans_formula + x, right)` and the `y` child
yields `(right_sans_formula, right + y)`. -/
def nrimplRightPremises (δ : List Formula) (f : Formula) :
    Option (List (List Formula × List Formula)) :=
  match childAt f 0, childAt f 1 with
  | some x, some y =>
    some [(removeAddr δ f ++ [x], δ), (removeAddr δ f, δ ++ [y])]
  | _, _ => none

/-- C2 amended: for a binary `NImpl` (resp. `NRImpl`) formula occurring on
the right side, `breakdown` returns the disjunctive (`for_any`) evaluation
of the sub-proofs of exactly the premises of `nimplRightPremises`
(resp. `nrimplRightPremises`): for NImpl the premises `Δ₋ ⊢ Δ + x` and
`Δ₋ + y ⊢ Δ`, for NRImpl the premises `Δ₋ + x ⊢ Δ` and `Δ₋ ⊢ Δ + y`,
where `Δ₋` is the right side without the formula.  The left context of each
premise is thus built from the right side, not from Γ, and the right
context retains the whole Δ including the formula itself. -/
theorem C2_nimpl_right_premises (n : Nat) (γ δ : List Formula) (f : Formula)
    (x y : Formula) (hch : f.children = [x, y]) (hxy : x.addr ≠ y.addr)
    (hγ : countAddr γ f = 0) (hδ : 0 < countAddr δ f) :
    (f.sym = NImplS →
      breakdown n γ δ f
        = oAny (fun pr => prove n pr.1 pr.2)
            [(removeAddr δ f, δ ++ [x]), (removeAddr δ f ++ [y], δ)]
      ∧ nimplRightPremises δ f
        = some [(removeAddr δ f, δ ++ [x]), (removeAddr δ f ++ [y], δ)])
    ∧ (f.sym = NRImplS →
      breakdown n γ δ f
        = oAny (fun pr => prove n pr.1 pr.2)
            [(removeAddr δ f ++ [x], δ), (removeAddr δ f, δ ++ [y])]
      ∧ nrimplRightPremises δ f
        = some [(removeAddr δ f ++ [x], δ), (removeAddr δ f, δ ++ [y])]) := by
  have hc0 : childAt f 0 = some x := by
    rw [childAt, hch]; rfl
  have hc1 : childAt f 1 = some y := by
    rw [childAt, hch]; rfl
  have hnotγ : ¬ 0 < countAddr γ f := by omega
  constructor
  · intro hsym
    constructor
    · rw [breakdown_eq, if_neg hnotγ, if_pos hδ, hsym]
      rw [if_neg (by decide : ¬ NImplS = FalseS),
        if_neg (by decide : ¬ NImplS = TrueS),
        if_neg (by decide : ¬ NImplS = NotS),
        if_neg (by decide : ¬ NImplS = NRImplS),
        if_pos (rfl : NImplS = NImplS)]
      rw [hch]
      refine oAny_pair _ _ _ _ _ _ ?_ ?_
      · rw [hc1, hc0]
        simp only []
        rw [if_neg hxy]
        simp
      · rw [hc1]
        simp only []
        simp
    · rw [nimplRightPremises, hc0, hc1]
  · intro hsym
    constructor
    · rw [breakdown_eq, if_neg hnotγ, if_pos hδ, hsym]
      rw [if_neg (by decide : ¬ NRImplS = FalseS),
        if_neg (by decide : ¬ NRImplS = TrueS),
        if_neg (by decide : ¬ NRImplS = NotS),
        if_pos (rfl : NRImplS = NRImplS)]
      rw [hch]
      refine oAny_pair _ _ _ _ _ _ ?_ ?_
      · rw [hc0]
        simp only []
        simp
      · rw [hc0]
        simp only []
        rw [if_neg (fun h => hxy h.symm), hc1]
        simp
    · rw [nrimplRightPremises, hc0, hc1]

end Sequents

namespace Sequents

/-- Witness for the C2 amended theorem: the NImpl clause instantiated on the
sequent `c ⊢ NImpl(a, b)` with concrete heap objects. -/
theorem C2_nimpl_right_premises_witness :
    breakdown 4 [Formula.node 9 (atomS 0x63) []]
        [Formula.node 1 NImplS
          [Formula.node 2 (atomS 0x61) [], Formula.node 3 (atomS 0x62) []]]
        (Formula.node 1 NImplS
          [Formula.node 2 (atomS 0x61) [], Formula.node 3 (atomS 0x62) []])
        = oAny (fun pr => prove 4 pr.1 pr.2)
            [(removeAddr
                [Formula.node 1 NImplS
                  [Formula.node 2 (atomS 0x61) [],
                    Formula.node 3 (atomS 0x62) []]]
                (Formula.node 1 NImplS
                  [Formula.node 2 (atomS 0x61) [],
                    Formula.node 3 (atomS 0x62) []]),
              [Formula.node 1 NImplS
                [Formula.node 2 (atomS 0x61) [],
                  Formula.node 3 (atomS 0x62) []]]
                ++ [Formula.node 2 (atomS 0x61) []]),
             (removeAddr
                [Formula.node 1 NImplS
                  [Formula.node 2 (atomS 0x61) [],
                    Formula.node 3 (atomS 0x62) []]]
                (Formula.node 1 NImplS
                  [Formula.node 2 (atomS 0x61) [],
                    Formula.node 3 (atomS 0x62) []])
                ++ [Formula.node 3 (atomS 0x62) []],
              [Formula.node 1 NImplS
                [Formula.node 2 (atomS 0x61) [],
                  Formula.node 3 (atomS 0x62) []]])]
      ∧ nimplRightPremises
          [Formula.node 1 NImplS
            [Formula.node 2 (atomS 0x61) [], Formula.node 3 (atomS 0x62) []]]
          (Formula.node 1 NImplS
            [Formula.node 2 (atomS 0x61) [], Formula.node 3 (atomS 0x62) []])
        = some [(removeAddr
              [Formula.node 1 NImplS
                [Formula.node 2 (atomS 0x61) [],
                  Formula.node 3 (atomS 0x62) []]]
              (Formula.node 1 NImplS
                [Formula.node 2 (atomS 0x61) [],
                  Formula.node 3 (atomS 0x62) []]),
            [Formula.node 1 NImplS
              [Formula.node 2 (atomS 0x61) [],
                Formula.node 3 (atomS 0x62) []]]
              ++ [Formula.node 2 (atomS 0x61) []]),
           (removeAddr
              [Formula.node 1 NImplS
                [Formula.node 2 (atomS 0x61) [],
                  Formula.node 3 (atomS 0x62) []]]
              (Formula.node 1 NImplS
                [Formula.node 2 (atomS 0x61) [],
                  Formula.node 3 (atomS 0x62) []])
              ++ [Formula.node 3 (atomS 0x62) []],
            [Formula.node 1 NImplS
              [Formula.node 2 (atomS 0x61) [],
                Formula.node 3 (atomS 0x62) []]])] :=
  (C2_nimpl_right_premises 4 [Formula.node 9 (atomS 0x63) []]
    [Formula.node 1 NImplS
      [Formula.node 2 (atomS 0x61) [], Formula.node 3 (atomS 0x62) []]]
    (Formula.node 1 NImplS
      [Formula.node 2 (atomS 0x61) [], Formula.node 3 (atomS 0x62) []])
    (Formula.node 2 (atomS 0x61) []) (Formula.node 3 (atomS 0x62) [])
    (by decide) (by decide) (by decide) (by decide)).1 (by decide)

/-- C2 counterexample: for the sequent `c ⊢ NImpl(a, b)` the premises the
right-side NImpl rule actually passes to `sub_prove` are
`(∅, [NImpl(a,b), a])` and `([b], [NImpl(a,b)])` — their left contexts are
built from the right side without the formula, not from the original left
side `[c]`, and the claimed premise list `(Γ + y ⊢ Δ), (Γ ⊢ Δ + x)` does
not match. -/
theorem C2_left_context_counterexample :
    nimplRightPremises
      [Formula.node 1 NImplS
        [Formula.node 2 (atomS 0x61) [], Formula.node 3 (atomS 0x62) []]]
      (Formula.node 1 NImplS
        [Formula.node 2 (atomS 0x61) [], Formula.node 3 (atomS 0x62) []])
      = some [(([] : List Formula),
            [Formula.node 1 NImplS
              [Formula.node 2 (atomS 0x61) [], Formula.node 3 (atomS 0x62) []],
              Formula.node 2 (atomS 0x61) []]),
          ([Formula.node 3 (atomS 0x62) []],
            [Formula.node 1 NImplS
              [Formula.node 2 (atomS 0x61) [],
                Formula.node 3 (atomS 0x62) []]])]
    ∧ some [(([] : List Formula),
          [Formula.node 1 NImplS
            [Formula.node 2 (atomS 0x61) [], Formula.node 3 (atomS 0x62) []],
            Formula.node 2 (atomS 0x61) []]),
        ([Formula.node 3 (atomS 0x62) []],
          [Formula.node 1 NImplS
            [Formula.node 2 (atomS 0x61) [],
              Formula.node 3 (atomS 0x62) []]])]
      ≠ some [([Formula.node 9 (atomS 0x63) [],
            Formula.node 3 (atomS 0x62) []],
          [Formula.node 1 NImplS
            [Formula.node 2 (atomS 0x61) [], Formula.node 3 (atomS 0x62) []]]),
        ([Formula.node 9 (atomS 0x63) []],
          [Formula.node 1 NImplS
            [Formula.node 2 (atomS 0x61) [], Formula.node 3 (atomS 0x62) []],
            Formula.node 2 (atomS 0x61) []])]
    ∧ (([] : List Formula) ≠ [Formula.node 9 (atomS 0x63) []])
    ∧ ([Formula.node 3 (atomS 0x62) []] ≠ [Formula.node 9 (atomS 0x63) []]) := by
  refine ⟨by decide, by decide, by decide, by decide⟩

end Sequents

namespace Sequents

/-! ### Termination analysis of the prover (claim C3)

The node addresses of a formula forest model the set of live formula
objects of a sequent.  In a well-formed sequent every object appears once
(the C++ heap cannot hold two objects at one address), which is expressed
by `Nodup` of the collected addresses; the premises built by `breakdown`
only pass around existing objects (contexts minus the selected formula,
plus some of its children), so their address collections are sub-multisets
of the original. -/

mutual
def nodeAddrs : Formula → List Nat
  | .node a _ ch => a :: nodeAddrsList ch

def nodeAddrsList : List Formula → List Nat
  | [] => []
  | f :: fs => nodeAddrs f ++ nodeAddrsList fs
end

theorem nodeAddrsList_append (a b : List Formula) :
    nodeAddrsList (a ++ b) = nodeAddrsList a ++ nodeAddrsList b := by
  induction a with
  | nil => simp [nodeAddrsList]
  | cons f fs ih =>
    show nodeAddrs f ++ nodeAddrsList (fs ++ b)
      = (nodeAddrs f ++ nodeAddrsList fs) ++ nodeAddrsList b
    rw [ih, List.append_assoc]

mutual
theorem totalSize_eq_length_nodeAddrs :
    ∀ f : Formula, totalSize f = (nodeAddrs f).length
  | .node a s ch => by
    simp only [totalSize, nodeAddrs, List.length_cons,
      totalSizeList_eq_length_nodeAddrsList ch]
    omega

theorem totalSizeList_eq_length_nodeAddrsList :
    ∀ l : List Formula, totalSizeList l = (nodeAddrsList l).length
  | [] => rfl
  | f :: fs => by
    simp only [totalSizeList, nodeAddrsList, List.length_append,
      totalSize_eq_length_nodeAddrs f,
      totalSizeList_eq_length_nodeAddrsList fs]
end

theorem addr_mem_nodeAddrs (f : Formula) : f.addr ∈ nodeAddrs f := by
  cases f with
  | node a s ch => simp [nodeAddrs, Formula.addr]

theorem addr_mem_nodeAddrsList {f : Formula} {l : List Formula} (h : f ∈ l) :
    f.addr ∈ nodeAddrsList l := by
  induction l with
  | nil => cases h
  | cons g gs ih =>
    rcases List.mem_cons.mp h with rfl | h'
    · simp only [nodeAddrsList, List.mem_append]
      exact Or.inl (addr_mem_nodeAddrs f)
    · simp only [nodeAddrsList, List.mem_append]
      exact Or.inr (ih h')

theorem nodeAddrs_le_nodeAddrsList {f : Formula} {l : List Formula}
    (h : f ∈ l) :
    (↑(nodeAddrs f) : Multiset Nat) ≤ ↑(nodeAddrsList l) := by
  induction l with
  | nil => cases h
  | cons g gs ih =>
    rcases List.mem_cons.mp h with rfl | h'
    · simp only [nodeAddrsList]
      rw [← Multiset.coe_add]
      exact Multiset.le_add_right _ _
    · simp only [nodeAddrsList]
      rw [← Multiset.coe_add]
      exact le_trans (ih h') (Multiset.le_add_left _ _)

/-- In a forest with globally distinct node addresses, removing a member
formula by its address removes exactly that one occurrence. -/
theorem removeAddr_split {γ : List Formula} {f : Formula}
    (hnd : (nodeAddrsList γ).Nodup) (hf : f ∈ γ) :
    ∃ A B, γ = A ++ f :: B ∧ removeAddr γ f = A ++ B := by
  induction γ with
  | nil => cases hf
  | cons g gs ih =>
    have hnd2 : (nodeAddrs g ++ nodeAddrsList gs).Nodup := hnd
    rw [List.nodup_append] at hnd2
    obtain ⟨hndg, hndgs, hdisj⟩ := hnd2
    rcases List.mem_cons.mp hf with rfl | h'
    · refine ⟨[], gs, by simp, ?_⟩
      show List.filter (fun g2 => !(g2.addr == f.addr)) (f :: gs) = gs
      rw [List.filter_cons]
      rw [if_neg (by simp)]
      apply List.filter_eq_self.mpr
      intro h hh
      simp only [Bool.not_eq_eq_eq_not, Bool.not_true, beq_eq_false_iff_ne,
        ne_eq]
      intro hcontra
      exact hdisj (addr_mem_nodeAddrs f)
        (hcontra ▸ addr_mem_nodeAddrsList hh)
    · have hga : g.addr ≠ f.addr := by
        intro hcontra
        exact hdisj (addr_mem_nodeAddrs g)
          (hcontra ▸ addr_mem_nodeAddrsList h')
      obtain ⟨A, B, hAB, hrem⟩ := ih hndgs h'
      refine ⟨g :: A, B, by rw [hAB]; rfl, ?_⟩
      show List.filter (fun g2 => !(g2.addr == f.addr)) (g :: gs) = g :: (A ++ B)
      rw [List.filter_cons]
      rw [if_pos (by simp [hga])]
      exact congrArg (List.cons g) hrem

end Sequents

namespace Sequents

mutual
/-- Well-formedness of a formula for the termination claim: no NImpl or
NRImpl symbol anywhere (the two right-side rules that retain the whole
right context and can regrow the sequent), `Not` has exactly one child, and
`Impl` / `RImpl` have exactly two children (matching what the corresponding
rules access). -/
def okF : Formula → Bool
  | .node _ s ch =>
    !(s == NImplS) && !(s == NRImplS)
      && (!(s == NotS) || ch.length == 1)
      && (!(s == ImplS) || ch.length == 2)
      && (!(s == RImplS) || ch.length == 2)
      && okL ch

def okL : List Formula → Bool
  | [] => true
  | f :: fs => okF f && okL fs
end

theorem okL_iff {l : List Formula} :
    okL l = true ↔ ∀ f ∈ l, okF f = true := by
  induction l with
  | nil => simp [okL]
  | cons g gs ih =>
    simp only [okL, Bool.and_eq_true, ih]
    constructor
    · rintro ⟨hg, hgs⟩ f hf
      rcases List.mem_cons.mp hf with rfl | h'
      · exact hg
      · exact hgs f h'
    · intro h
      exact ⟨h g (List.mem_cons_self g gs),
        fun f hf => h f (List.mem_cons_of_mem g hf)⟩

theorem okF_destruct {a : Nat} {s : Symbol} {ch : List Formula}
    (h : okF (Formula.node a s ch) = true) :
    s ≠ NImplS ∧ s ≠ NRImplS ∧ (s = NotS → ch.length = 1)
      ∧ (s = ImplS → ch.length = 2) ∧ (s = RImplS → ch.length = 2)
      ∧ okL ch = true := by
  simp only [okF, Bool.and_eq_true, Bool.not_eq_eq_eq_not, Bool.not_true,
    beq_eq_false_iff_ne, ne_eq, Bool.or_eq_true, beq_iff_eq] at h
  obtain ⟨⟨⟨⟨⟨h1, h2⟩, h3⟩, h4⟩, h5⟩, h6⟩ := h
  refine ⟨h1, h2, ?_, ?_, ?_, h6⟩
  · intro hs
    rcases h3 with h | h
    · exact absurd hs h
    · exact h
  · intro hs
    rcases h4 with h | h
    · exact absurd hs h
    · exact h
  · intro hs
    rcases h5 with h | h
    · exact absurd hs h
    · exact h

theorem totalSizeList_append (a b : List Formula) :
    totalSizeList (a ++ b) = totalSizeList a + totalSizeList b := by
  rw [totalSizeList_eq_length_nodeAddrsList, nodeAddrsList_append,
    List.length_append, ← totalSizeList_eq_length_nodeAddrsList,
    ← totalSizeList_eq_length_nodeAddrsList]

/-- The combined multiset inequality for a left-side breakdown step: the
node addresses of the premise `(Γ₋ ++ L, Δ ++ R)`, together with the
address of the selected formula, form a sub-multiset of the node addresses
of the original sequent, provided `L` and `R` only carry children of the
selected formula. -/
theorem step_left_le {γ δ : List Formula} {f : Formula} {L R : List Formula}
    (hnd : (nodeAddrsList (γ ++ δ)).Nodup) (hf : f ∈ γ)
    (hsub : (↑(nodeAddrsList L) + ↑(nodeAddrsList R) : Multiset Nat)
      ≤ ↑(nodeAddrsList f.children)) :
    (↑(nodeAddrsList ((removeAddr γ f ++ L) ++ (δ ++ R))) : Multiset Nat)
        + {f.addr}
      ≤ ↑(nodeAddrsList (γ ++ δ)) := by
  have hndγ : (nodeAddrsList γ).Nodup := by
    rw [nodeAddrsList_append, List.nodup_append] at hnd
    exact hnd.1
  obtain ⟨A, B, hAB, hrem⟩ := removeAddr_split hndγ hf
  have hnf : (↑(nodeAddrs f) : Multiset Nat)
      = ↑(nodeAddrsList f.children) + {f.addr} := by
    cases f with
    | node a s ch =>
      show (↑(a :: nodeAddrsList ch) : Multiset Nat)
        = ↑(nodeAddrsList ch) + {a}
      rw [← Multiset.cons_coe]
      rw [Multiset.cons_eq_cons.mpr (Or.inl ⟨rfl, rfl⟩)]
      rw [add_comm]
      rfl
  have horig : (↑(nodeAddrsList (γ ++ δ)) : Multiset Nat)
      = ↑(nodeAddrsList A) + ↑(nodeAddrsList B) + ↑(nodeAddrsList δ)
        + ↑(nodeAddrsList f.children) + {f.addr} := by
    rw [hAB]
    rw [nodeAddrsList_append, nodeAddrsList_append]
    show (↑((nodeAddrsList A ++ (nodeAddrs f ++ nodeAddrsList B))
        ++ nodeAddrsList δ) : Multiset Nat) = _
    rw [← Multiset.coe_add, ← Multiset.coe_add, ← Multiset.coe_add, hnf]
    abel
  have hprem : (↑(nodeAddrsList ((removeAddr γ f ++ L) ++ (δ ++ R)))
      : Multiset Nat)
      = ↑(nodeAddrsList A) + ↑(nodeAddrsList B) + ↑(nodeAddrsList δ)
        + (↑(nodeAddrsList L) + ↑(nodeAddrsList R)) := by
    rw [hrem]
    rw [nodeAddrsList_append, nodeAddrsList_append, nodeAddrsList_append,
      nodeAddrsList_append]
    rw [← Multiset.coe_add, ← Multiset.coe_add, ← Multiset.coe_add,
      ← Multiset.coe_add]
    abel
  rw [horig, hprem]
  have step := add_le_add_left hsub
    ((↑(nodeAddrsList A) + ↑(nodeAddrsList B) + ↑(nodeAddrsList δ)
      : Multiset Nat))
  calc ↑(nodeAddrsList A) + ↑(nodeAddrsList B) + ↑(nodeAddrsList δ)
        + (↑(nodeAddrsList L) + ↑(nodeAddrsList R)) + {f.addr}
      ≤ ↑(nodeAddrsList A) + ↑(nodeAddrsList B) + ↑(nodeAddrsList δ)
        + ↑(nodeAddrsList f.children) + ({f.addr} : Multiset Nat) := by
        exact add_le_add_right step _
    _ = _ := rfl

/-- The mirrored inequality for a right-side breakdown step: premise
`(Γ ++ L, Δ₋ ++ R)`. -/
theorem step_right_le {γ δ : List Formula} {f : Formula} {L R : List Formula}
    (hnd : (nodeAddrsList (γ ++ δ)).Nodup) (hf : f ∈ δ)
    (hsub : (↑(nodeAddrsList L) + ↑(nodeAddrsList R) : Multiset Nat)
      ≤ ↑(nodeAddrsList f.children)) :
    (↑(nodeAddrsList ((γ ++ L) ++ (removeAddr δ f ++ R))) : Multiset Nat)
        + {f.addr}
      ≤ ↑(nodeAddrsList (γ ++ δ)) := by
  have hndδ : (nodeAddrsList δ).Nodup := by
    rw [nodeAddrsList_append, List.nodup_append] at hnd
    exact hnd.2.1
  obtain ⟨A, B, hAB, hrem⟩ := removeAddr_split hndδ hf
  have hnf : (↑(nodeAddrs f) : Multiset Nat)
      = ↑(nodeAddrsList f.children) + {f.addr} := by
    cases f with
    | node a s ch =>
      show (↑(a :: nodeAddrsList ch) : Multiset Nat)
        = ↑(nodeAddrsList ch) + {a}
      rw [← Multiset.cons_coe]
      rw [add_comm]
      rfl
  have horig : (↑(nodeAddrsList (γ ++ δ)) : Multiset Nat)
      = ↑(nodeAddrsList γ) + ↑(nodeAddrsList A) + ↑(nodeAddrsList B)
        + ↑(nodeAddrsList f.children) + {f.addr} := by
    rw [hAB]
    rw [nodeAddrsList_append, nodeAddrsList_append]
    show (↑(nodeAddrsList γ ++ (nodeAddrsList A
        ++ (nodeAddrs f ++ nodeAddrsList B))) : Multiset Nat) = _
    rw [← Multiset.coe_add, ← Multiset.coe_add, ← Multiset.coe_add, hnf]
    abel
  have hprem : (↑(nodeAddrsList ((γ ++ L) ++ (removeAddr δ f ++ R)))
      : Multiset Nat)
      = ↑(nodeAddrsList γ) + ↑(nodeAddrsList A) + ↑(nodeAddrsList B)
        + (↑(nodeAddrsList L) + ↑(nodeAddrsList R)) := by
    rw [hrem]
    rw [nodeAddrsList_append, nodeAddrsList_append, nodeAddrsList_append,
      nodeAddrsList_append]
    rw [← Multiset.coe_add, ← Multiset.coe_add, ← Multiset.coe_add,
      ← Multiset.coe_add]
    abel
  rw [horig, hprem]
  have step := add_le_add_left hsub
    ((↑(nodeAddrsList γ) + ↑(nodeAddrsList A) + ↑(nodeAddrsList B)
      : Multiset Nat))
  exact add_le_add_right step _

end Sequents

namespace Sequents

theorem countAddr_pos_of_mem {γ : List Formula} {f : Formula} (h : f ∈ γ) :
    0 < countAddr γ f := by
  rw [countAddr, List.length_pos]
  intro hemp
  have : f ∈ List.filter (fun g => g.addr == f.addr) γ :=
    List.mem_filter.mpr ⟨h, by simp⟩
  rw [hemp] at this
  cases this

theorem countAddr_eq_zero_cross {γ δ : List Formula} {f : Formula}
    (hnd : (nodeAddrsList (γ ++ δ)).Nodup) (hf : f ∈ δ) :
    countAddr γ f = 0 := by
  rw [countAddr, List.length_eq_zero]
  by_contra hne
  obtain ⟨g, hg⟩ := List.exists_mem_of_ne_nil _ hne
  have hg2 := List.mem_filter.mp hg
  have hgaddr : g.addr = f.addr := by simpa using hg2.2
  rw [nodeAddrsList_append, List.nodup_append] at hnd
  exact hnd.2.2 (addr_mem_nodeAddrsList hg2.1)
    (hgaddr ▸ addr_mem_nodeAddrsList hf)

theorem mem_removeAddr {γ : List Formula} {f g : Formula}
    (h : g ∈ removeAddr γ f) : g ∈ γ :=
  (List.mem_filter.mp h).1

theorem nodes_nil_le {ch : List Formula} :
    (↑(nodeAddrsList []) : Multiset Nat) ≤ ↑(nodeAddrsList ch) := by
  show (↑([] : List Nat) : Multiset Nat) ≤ _
  simp

theorem nodes_single_le {x : Formula} {ch : List Formula} (hx : x ∈ ch) :
    (↑(nodeAddrsList [x]) : Multiset Nat) ≤ ↑(nodeAddrsList ch) := by
  show (↑(nodeAddrs x ++ nodeAddrsList []) : Multiset Nat) ≤ _
  rw [show nodeAddrsList [] = [] from rfl, List.append_nil]
  exact nodeAddrs_le_nodeAddrsList hx

/-- A member of the sequent has a duplicate-free own address block; in
particular a binary formula's two children have distinct addresses. -/
theorem sibling_addr_ne {γ δ : List Formula} {f x y : Formula}
    (hnd : (nodeAddrsList (γ ++ δ)).Nodup) (hf : f ∈ γ ++ δ)
    (hch : f.children = [x, y]) : x.addr ≠ y.addr := by
  have hle := nodeAddrs_le_nodeAddrsList hf
  have hndf : (nodeAddrs f).Nodup := by
    have := Multiset.nodup_of_le hle (by
      rw [Multiset.coe_nodup]
      exact hnd)
    rwa [Multiset.coe_nodup] at this
  cases f with
  | node a s ch =>
    simp only [Formula.children] at hch
    subst hch
    have : (a :: (nodeAddrs x ++ (nodeAddrs y ++ []))).Nodup := hndf
    rw [List.nodup_cons, List.append_nil, List.nodup_append] at this
    intro hcontra
    exact this.2.2.2 (addr_mem_nodeAddrs x)
      (hcontra ▸ addr_mem_nodeAddrs y)

/-- The two derived facts of a left-side step: the premise sequent again
has duplicate-free addresses, and its total size strictly decreased. -/
theorem step_left_facts {γ δ : List Formula} {f : Formula}
    {L R : List Formula}
    (hnd : (nodeAddrsList (γ ++ δ)).Nodup) (hf : f ∈ γ)
    (hsub : (↑(nodeAddrsList L) + ↑(nodeAddrsList R) : Multiset Nat)
      ≤ ↑(nodeAddrsList f.children)) :
    (nodeAddrsList ((removeAddr γ f ++ L) ++ (δ ++ R))).Nodup
    ∧ totalSizeList ((removeAddr γ f ++ L) ++ (δ ++ R))
      < totalSizeList (γ ++ δ) := by
  have hle := step_left_le hnd hf hsub
  have hle2 : (↑(nodeAddrsList ((removeAddr γ f ++ L) ++ (δ ++ R)))
      : Multiset Nat) ≤ ↑(nodeAddrsList (γ ++ δ)) :=
    le_trans (Multiset.le_add_right _ _) hle
  constructor
  · have := Multiset.nodup_of_le hle2 (by
      rw [Multiset.coe_nodup]; exact hnd)
    rwa [Multiset.coe_nodup] at this
  · have hcard := Multiset.card_le_card hle
    simp only [Multiset.card_add, Multiset.coe_card] at hcard
    rw [totalSizeList_eq_length_nodeAddrsList,
      totalSizeList_eq_length_nodeAddrsList]
    have : Multiset.card ({f.addr} : Multiset Nat) = 1 := rfl
    omega

/-- The mirrored facts of a right-side step. -/
theorem step_right_facts {γ δ : List Formula} {f : Formula}
    {L R : List Formula}
    (hnd : (nodeAddrsList (γ ++ δ)).Nodup) (hf : f ∈ δ)
    (hsub : (↑(nodeAddrsList L) + ↑(nodeAddrsList R) : Multiset Nat)
      ≤ ↑(nodeAddrsList f.children)) :
    (nodeAddrsList ((γ ++ L) ++ (removeAddr δ f ++ R))).Nodup
    ∧ totalSizeList ((γ ++ L) ++ (removeAddr δ f ++ R))
      < totalSizeList (γ ++ δ) := by
  have hle := step_right_le hnd hf hsub
  have hle2 : (↑(nodeAddrsList ((γ ++ L) ++ (removeAddr δ f ++ R)))
      : Multiset Nat) ≤ ↑(nodeAddrsList (γ ++ δ)) :=
    le_trans (Multiset.le_add_right _ _) hle
  constructor
  · have := Multiset.nodup_of_le hle2 (by
      rw [Multiset.coe_nodup]; exact hnd)
    rwa [Multiset.coe_nodup] at this
  · have hcard := Multiset.card_le_card hle
    simp only [Multiset.card_add, Multiset.coe_card] at hcard
    rw [totalSizeList_eq_length_nodeAddrsList,
      totalSizeList_eq_length_nodeAddrsList]
    have : Multiset.card ({f.addr} : Multiset Nat) = 1 := rfl
    omega

end Sequents

namespace Sequents

theorem okF_facts {f : Formula} (h : okF f = true) :
    f.sym ≠ NImplS ∧ f.sym ≠ NRImplS
      ∧ (f.sym = NotS → f.children.length = 1)
      ∧ (f.sym = ImplS → f.children.length = 2)
      ∧ (f.sym = RImplS → f.children.length = 2)
      ∧ okL f.children = true := by
  cases f with
  | node a s ch => exact okF_destruct h

theorem sub_nil_nil (ch : List Formula) :
    (↑(nodeAddrsList []) + ↑(nodeAddrsList ([] : List Formula))
      : Multiset Nat) ≤ ↑(nodeAddrsList ch) := by
  show ((↑([] : List Nat) + ↑([] : List Nat)) : Multiset Nat) ≤ _
  simp

theorem sub_single_nil (ch : List Formula) {x : Formula} (hx : x ∈ ch) :
    (↑(nodeAddrsList [x]) + ↑(nodeAddrsList ([] : List Formula))
      : Multiset Nat) ≤ ↑(nodeAddrsList ch) := by
  rw [show nodeAddrsList ([] : List Formula) = [] from rfl]
  simpa using nodes_single_le hx

theorem sub_nil_single (ch : List Formula) {x : Formula} (hx : x ∈ ch) :
    (↑(nodeAddrsList ([] : List Formula)) + ↑(nodeAddrsList [x])
      : Multiset Nat) ≤ ↑(nodeAddrsList ch) := by
  rw [show nodeAddrsList ([] : List Formula) = [] from rfl]
  simpa using nodes_single_le hx

theorem sub_all_nil (ch : List Formula) :
    (↑(nodeAddrsList ch) + ↑(nodeAddrsList ([] : List Formula))
      : Multiset Nat) ≤ ↑(nodeAddrsList ch) := by
  rw [show nodeAddrsList ([] : List Formula) = [] from rfl]
  simp

theorem sub_nil_all (ch : List Formula) :
    (↑(nodeAddrsList ([] : List Formula)) + ↑(nodeAddrsList ch)
      : Multiset Nat) ≤ ↑(nodeAddrsList ch) := by
  rw [show nodeAddrsList ([] : List Formula) = [] from rfl]
  simp

theorem okF_nil_mem : ∀ g ∈ ([] : List Formula), okF g = true :=
  fun g hg => absurd hg (List.not_mem_nil g)

/-- If the whole premise-building data is in order, a left-side breakdown
premise again satisfies the termination invariant and the inductive
hypothesis applies to it. -/
theorem prove_isSome_step_left (m : Nat)
    (ih : ∀ γ' δ' : List Formula, (nodeAddrsList (γ' ++ δ')).Nodup →
      okL (γ' ++ δ') = true → totalSizeList (γ' ++ δ') < m →
      (prove m γ' δ').isSome = true)
    {γ δ : List Formula} {f : Formula} {L R : List Formula}
    (hnd : (nodeAddrsList (γ ++ δ)).Nodup) (hok : okL (γ ++ δ) = true)
    (hm : totalSizeList (γ ++ δ) ≤ m) (hf : f ∈ γ)
    (hsub : (↑(nodeAddrsList L) + ↑(nodeAddrsList R) : Multiset Nat)
      ≤ ↑(nodeAddrsList f.children))
    (hL : ∀ g ∈ L, okF g = true) (hR : ∀ g ∈ R, okF g = true) :
    (prove m (removeAddr γ f ++ L) (δ ++ R)).isSome = true := by
  obtain ⟨hnd', hsz⟩ := step_left_facts hnd hf hsub
  apply ih _ _ hnd' _ (lt_of_lt_of_le hsz hm)
  apply okL_iff.mpr
  intro g hg
  rcases List.mem_append.mp hg with h1 | h2
  · rcases List.mem_append.mp h1 with ha | hb
    · exact okL_iff.mp hok g (List.mem_append.mpr (Or.inl (mem_removeAddr ha)))
    · exact hL g hb
  · rcases List.mem_append.mp h2 with ha | hb
    · exact okL_iff.mp hok g (List.mem_append.mpr (Or.inr ha))
    · exact hR g hb

/-- The mirrored fact for a right-side breakdown premise. -/
theorem prove_isSome_step_right (m : Nat)
    (ih : ∀ γ' δ' : List Formula, (nodeAddrsList (γ' ++ δ')).Nodup →
      okL (γ' ++ δ') = true → totalSizeList (γ' ++ δ') < m →
      (prove m γ' δ').isSome = true)
    {γ δ : List Formula} {f : Formula} {L R : List Formula}
    (hnd : (nodeAddrsList (γ ++ δ)).Nodup) (hok : okL (γ ++ δ) = true)
    (hm : totalSizeList (γ ++ δ) ≤ m) (hf : f ∈ δ)
    (hsub : (↑(nodeAddrsList L) + ↑(nodeAddrsList R) : Multiset Nat)
      ≤ ↑(nodeAddrsList f.children))
    (hL : ∀ g ∈ L, okF g = true) (hR : ∀ g ∈ R, okF g = true) :
    (prove m (γ ++ L) (removeAddr δ f ++ R)).isSome = true := by
  obtain ⟨hnd', hsz⟩ := step_right_facts hnd hf hsub
  apply ih _ _ hnd' _ (lt_of_lt_of_le hsz hm)
  apply okL_iff.mpr
  intro g hg
  rcases List.mem_append.mp hg with h1 | h2
  · rcases List.mem_append.mp h1 with ha | hb
    · exact okL_iff.mp hok g (List.mem_append.mpr (Or.inl ha))
    · exact hL g hb
  · rcases List.mem_append.mp h2 with ha | hb
    · exact okL_iff.mp hok g
        (List.mem_append.mpr (Or.inr (mem_removeAddr ha)))
    · exact hR g hb

end Sequents

namespace Sequents

theorem sub_pair (x y : Formula) :
    (↑(nodeAddrsList [x]) + ↑(nodeAddrsList [y]) : Multiset Nat)
      ≤ ↑(nodeAddrsList [x, y]) := by
  show (↑(nodeAddrs x ++ nodeAddrsList []) + ↑(nodeAddrs y ++ nodeAddrsList [])
    : Multiset Nat) ≤ ↑(nodeAddrs x ++ (nodeAddrs y ++ nodeAddrsList []))
  rw [show nodeAddrsList ([] : List Formula) = [] from rfl]
  rw [List.append_nil, List.append_nil, ← Multiset.coe_add]

theorem sub_pair_swap (x y : Formula) :
    (↑(nodeAddrsList [y]) + ↑(nodeAddrsList [x]) : Multiset Nat)
      ≤ ↑(nodeAddrsList [x, y]) := by
  rw [add_comm]
  exact sub_pair x y

theorem okF_single_of_mem {ch : List Formula} {x : Formula}
    (hch : okL ch = true) (hx : x ∈ ch) :
    ∀ g ∈ [x], okF g = true := by
  intro g hg
  rw [List.mem_singleton] at hg
  rw [hg]
  exact okL_iff.mp hch x hx

/-- Given the inductive hypothesis one fuel level down, `breakdown` yields a
result on every formula of a well-formed sequent: each rule's premises are
strictly smaller sequents with the invariant preserved, and the unhandled
default returns `false` outright. -/
theorem breakdown_isSome (m : Nat)
    (ih : ∀ γ' δ' : List Formula, (nodeAddrsList (γ' ++ δ')).Nodup →
      okL (γ' ++ δ') = true → totalSizeList (γ' ++ δ') < m →
      (prove m γ' δ').isSome = true)
    {γ δ : List Formula} {f : Formula}
    (hnd : (nodeAddrsList (γ ++ δ)).Nodup) (hok : okL (γ ++ δ) = true)
    (hm : totalSizeList (γ ++ δ) ≤ m) (hf : f ∈ γ ++ δ) :
    (breakdown m γ δ f).isSome = true := by
  obtain ⟨hni, hnri, hnot1, himpl2, hrimpl2, hchok⟩ :=
    okF_facts (okL_iff.mp hok f hf)
  rw [breakdown_eq]
  rcases List.mem_append.mp hf with hfγ | hfδ
  · rw [if_pos (countAddr_pos_of_mem hfγ)]
    by_cases hT : f.sym = TrueS
    · simp only [if_pos hT]
      have h := prove_isSome_step_left m ih hnd hok hm hfγ
        (sub_nil_nil f.children) okF_nil_mem okF_nil_mem
      simpa using h
    by_cases hF : f.sym = FalseS
    · simp only [if_neg hT, if_pos hF]
      rfl
    by_cases hN : f.sym = NotS
    · obtain ⟨x, hch⟩ := List.length_eq_one.mp (hnot1 hN)
      have hc0 : childAt f 0 = some x := by rw [childAt, hch]; rfl
      have hxm : x ∈ f.children := by rw [hch]; exact List.mem_singleton_self x
      simp only [if_neg hT, if_neg hF, if_pos hN, hc0]
      have h := prove_isSome_step_left m ih hnd hok hm hfγ
        (sub_nil_single f.children hxm) okF_nil_mem
        (okF_single_of_mem hchok hxm)
      simpa using h
    by_cases hRI : f.sym = RImplS
    · obtain ⟨x, y, hch⟩ := List.length_eq_two.mp (hrimpl2 hRI)
      have hc0 : childAt f 0 = some x := by rw [childAt, hch]; rfl
      have hc1 : childAt f 1 = some y := by rw [childAt, hch]; rfl
      have hxm : x ∈ f.children := by rw [hch]; exact List.mem_cons_self x [y]
      have hym : y ∈ f.children := by
        rw [hch]; exact List.mem_cons_of_mem x (List.mem_singleton_self y)
      have hxy : x.addr ≠ y.addr := sibling_addr_ne hnd hf hch
      simp only [if_neg hT, if_neg hF, if_neg hN, if_pos hRI, hc0, hc1]
      apply oAny_isSome
      intro c hc
      rw [hch] at hc
      dsimp only
      rcases List.mem_cons.mp hc with rfl | hc2
      · rw [if_pos (Eq.refl c.addr)]
        have h := prove_isSome_step_left m ih hnd hok hm hfγ
          (sub_single_nil f.children hxm)
          (okF_single_of_mem hchok hxm) okF_nil_mem
        simpa using h
      rcases List.mem_cons.mp hc2 with rfl | hc3
      · rw [if_neg (Ne.symm hxy), if_pos (Eq.refl c.addr)]
        have h := prove_isSome_step_left m ih hnd hok hm hfγ
          (sub_nil_single f.children hym) okF_nil_mem
          (okF_single_of_mem hchok hym)
        simpa using h
      · cases hc3
    by_cases hI : f.sym = ImplS
    · obtain ⟨x, y, hch⟩ := List.length_eq_two.mp (himpl2 hI)
      have hc0 : childAt f 0 = some x := by rw [childAt, hch]; rfl
      have hc1 : childAt f 1 = some y := by rw [childAt, hch]; rfl
      have hxm : x ∈ f.children := by rw [hch]; exact List.mem_cons_self x [y]
      have hym : y ∈ f.children := by
        rw [hch]; exact List.mem_cons_of_mem x (List.mem_singleton_self y)
      have hxy : x.addr ≠ y.addr := sibling_addr_ne hnd hf hch
      simp only [if_neg hT, if_neg hF, if_neg hN, if_neg hRI, if_pos hI,
        hc0, hc1]
      apply oAny_isSome
      intro c hc
      rw [hch] at hc
      dsimp only
      rcases List.mem_cons.mp hc with rfl | hc2
      · rw [if_neg hxy, if_pos (Eq.refl c.addr)]
        have h := prove_isSome_step_left m ih hnd hok hm hfγ
          (sub_nil_single f.children hxm) okF_nil_mem
          (okF_single_of_mem hchok hxm)
        simpa using h
      rcases List.mem_cons.mp hc2 with rfl | hc3
      · rw [if_pos (Eq.refl c.addr)]
        have h := prove_isSome_step_left m ih hnd hok hm hfγ
          (sub_single_nil f.children hym)
          (okF_single_of_mem hchok hym) okF_nil_mem
        simpa using h
      · cases hc3
    by_cases hA : f.sym = AndS
    · simp only [if_neg hT, if_neg hF, if_neg hN, if_neg hRI, if_neg hI,
        if_neg hnri, if_neg hni, if_pos hA]
      have h := prove_isSome_step_left m ih hnd hok hm hfγ
        (sub_all_nil f.children) (okL_iff.mp hchok) okF_nil_mem
      simpa using h
    by_cases hO : f.sym = OrS
    · simp only [if_neg hT, if_neg hF, if_neg hN, if_neg hRI, if_neg hI,
        if_neg hnri, if_neg hni, if_neg hA, if_pos hO]
      apply oAll_isSome
      intro c hc
      have hcm := mem_sortByKey hc
      have h := prove_isSome_step_left m ih hnd hok hm hfγ
        (sub_single_nil f.children hcm)
        (okF_single_of_mem hchok hcm) okF_nil_mem
      simpa using h
    by_cases hNO : f.sym = NOrS
    · simp only [if_neg hT, if_neg hF, if_neg hN, if_neg hRI, if_neg hI,
        if_neg hnri, if_neg hni, if_neg hA, if_neg hO, if_pos hNO]
      have h := prove_isSome_step_left m ih hnd hok hm hfγ
        (sub_nil_all f.children) okF_nil_mem (okL_iff.mp hchok)
      simpa using h
    by_cases hNA : f.sym = NAndS
    · simp only [if_neg hT, if_neg hF, if_neg hN, if_neg hRI, if_neg hI,
        if_neg hnri, if_neg hni, if_neg hA, if_neg hO, if_neg hNO,
        if_pos hNA]
      apply oAll_isSome
      intro c hc
      have hcm := mem_sortByKey hc
      have h := prove_isSome_step_left m ih hnd hok hm hfγ
        (sub_nil_single f.children hcm) okF_nil_mem
        (okF_single_of_mem hchok hcm)
      simpa using h
    · simp only [if_neg hT, if_neg hF, if_neg hN, if_neg hRI, if_neg hI,
        if_neg hnri, if_neg hni, if_neg hA, if_neg hO, if_neg hNO,
        if_neg hNA]
      rfl
  · have hzero : countAddr γ f = 0 := countAddr_eq_zero_cross hnd hfδ
    rw [if_neg (by rw [hzero]; exact lt_irrefl 0),
      if_pos (countAddr_pos_of_mem hfδ)]
    by_cases hF : f.sym = FalseS
    · simp only [if_pos hF]
      have h := prove_isSome_step_right m ih hnd hok hm hfδ
        (sub_nil_nil f.children) okF_nil_mem okF_nil_mem
      simpa using h
    by_cases hT : f.sym = TrueS
    · simp only [if_neg hF, if_pos hT]
      rfl
    by_cases hN : f.sym = NotS
    · obtain ⟨x, hch⟩ := List.length_eq_one.mp (hnot1 hN)
      have hc0 : childAt f 0 = some x := by rw [childAt, hch]; rfl
      have hxm : x ∈ f.children := by rw [hch]; exact List.mem_singleton_self x
      simp only [if_neg hF, if_neg hT, if_pos hN, hc0]
      have h := prove_isSome_step_right m ih hnd hok hm hfδ
        (sub_single_nil f.children hxm)
        (okF_single_of_mem hchok hxm) okF_nil_mem
      simpa using h
    by_cases hI : f.sym = ImplS
    · obtain ⟨x, y, hch⟩ := List.length_eq_two.mp (himpl2 hI)
      have hc0 : childAt f 0 = some x := by rw [childAt, hch]; rfl
      have hc1 : childAt f 1 = some y := by rw [childAt, hch]; rfl
      simp only [if_neg hF, if_neg hT, if_neg hN, if_neg hnri, if_neg hni,
        if_pos hI, hc0, hc1]
      have h := prove_isSome_step_right m ih hnd hok hm hfδ
        (by rw [hch]; exact sub_pair x y)
        (okF_single_of_mem hchok (by
          rw [hch]; exact List.mem_cons_self x [y]))
        (okF_single_of_mem hchok (by
          rw [hch]; exact List.mem_cons_of_mem x (List.mem_singleton_self y)))
      simpa using h
    by_cases hRI : f.sym = RImplS
    · obtain ⟨x, y, hch⟩ := List.length_eq_two.mp (hrimpl2 hRI)
      have hc0 : childAt f 0 = some x := by rw [childAt, hch]; rfl
      have hc1 : childAt f 1 = some y := by rw [childAt, hch]; rfl
      simp only [if_neg hF, if_neg hT, if_neg hN, if_neg hnri, if_neg hni,
        if_neg hI, if_pos hRI, hc0, hc1]
      have h := prove_isSome_step_right m ih hnd hok hm hfδ
        (by rw [hch]; exact sub_pair_swap x y)
        (okF_single_of_mem hchok (by
          rw [hch]; exact List.mem_cons_of_mem x (List.mem_singleton_self y)))
        (okF_single_of_mem hchok (by
          rw [hch]; exact List.mem_cons_self x [y]))
      simpa using h
    by_cases hO : f.sym = OrS
    · simp only [if_neg hF, if_neg hT, if_neg hN, if_neg hnri, if_neg hni,
        if_neg hI, if_neg hRI, if_pos hO]
      have h := prove_isSome_step_right m ih hnd hok hm hfδ
        (sub_nil_all f.children) okF_nil_mem (okL_iff.mp hchok)
      simpa using h
    by_cases hA : f.sym = AndS
    · simp only [if_neg hF, if_neg hT, if_neg hN, if_neg hnri, if_neg hni,
        if_neg hI, if_neg hRI, if_neg hO, if_pos hA]
      apply oAll_isSome
      intro c hc
      have hcm := mem_sortByKey hc
      have h := prove_isSome_step_right m ih hnd hok hm hfδ
        (sub_nil_single f.children hcm) okF_nil_mem
        (okF_single_of_mem hchok hcm)
      simpa using h
    by_cases hNA : f.sym = NAndS
    · simp only [if_neg hF, if_neg hT, if_neg hN, if_neg hnri, if_neg hni,
        if_neg hI, if_neg hRI, if_neg hO, if_neg hA, if_pos hNA]
      have h := prove_isSome_step_right m ih hnd hok hm hfδ
        (sub_all_nil f.children) (okL_iff.mp hchok) okF_nil_mem
      simpa using h
    by_cases hNO : f.sym = NOrS
    · simp only [if_neg hF, if_neg hT, if_neg hN, if_neg hnri, if_neg hni,
        if_neg hI, if_neg hRI, if_neg hO, if_neg hA, if_neg hNA, if_pos hNO]
      apply oAll_isSome
      intro c hc
      have hcm := mem_sortByKey hc
      have h := prove_isSome_step_right m ih hnd hok hm hfδ
        (sub_single_nil f.children hcm)
        (okF_single_of_mem hchok hcm) okF_nil_mem
      simpa using h
    · simp only [if_neg hF, if_neg hT, if_neg hN, if_neg hnri, if_neg hni,
        if_neg hI, if_neg hRI, if_neg hO, if_neg hA, if_neg hNA, if_neg hNO]
      rfl

end Sequents

namespace Sequents

/-- Termination on well-formed sequents: with fuel exceeding the total node
count, `prove` always yields a Boolean.  Well-formed means globally distinct
node addresses, no NImpl / NRImpl connective, and the arities the rules
access. -/
theorem prove_isSome_of_wf :
    ∀ (n : Nat) (γ δ : List Formula),
      (nodeAddrsList (γ ++ δ)).Nodup → okL (γ ++ δ) = true →
      totalSizeList (γ ++ δ) < n → (prove n γ δ).isSome = true := by
  intro n
  induction n with
  | zero =>
    intro γ δ _ _ hsz
    exact absurd hsz (Nat.not_lt_zero _)
  | succ m ih =>
    intro γ δ hnd hok hsz
    rw [prove_succ]
    by_cases hemp : γ.length = 0 ∧ δ.length = 0
    · rw [if_pos hemp]; rfl
    rw [if_neg hemp]
    by_cases hax : (sortByKey (fun pq => guideEqual pq.1 pq.2)
        (cartesianPairs γ δ)).any (fun pq => formulasEqual pq.1 pq.2) = true
    · rw [if_pos hax]; rfl
    rw [if_neg hax]
    apply oAny_isSome
    intro f hf
    exact breakdown_isSome m ih hnd hok (Nat.lt_succ_iff.mp hsz)
      (mem_sortByKey hf)

end Sequents

namespace Sequents

/-- The atoms and formula of the divergent instance `⊢ a ↚ b`. -/
def nrA : Formula := Formula.node 2 (atomS 0x61) []

def nrB : Formula := Formula.node 3 (atomS 0x62) []

def nrF : Formula := Formula.node 1 NRImplS [nrA, nrB]

/-- One unfolding of the self-loop: on `a ⊢ a ↚ b` the axiom search fails
(the formulas differ), the atom breaks down to `false`, and the NRImpl-right
rule's first premise is `a ⊢ a ↚ b` again — the buggy `right_sans_formula`
left context re-creates the very same sequent one fuel level down. -/
theorem nrLoop_step (n : Nat) (h : prove n [nrA] [nrF] = none) :
    prove (n + 1) [nrA] [nrF] = none := by
  have e1 : prove (n + 1) [nrA] [nrF]
      = (match breakdown n [nrA] [nrF] nrF with
         | none => (none : Option Bool)
         | some true => some true
         | some false => some false) := rfl
  have e2 : breakdown n [nrA] [nrF] nrF
      = (match prove n [nrA] [nrF] with
         | none => (none : Option Bool)
         | some true => some true
         | some false =>
           (match prove n [] [nrF, nrB] with
            | none => none
            | some true => some true
            | some false => some false)) := rfl
  rw [e1, e2, h]

theorem nrLoop_none : ∀ n : Nat, prove n [nrA] [nrF] = none := by
  intro n
  induction n with
  | zero => rfl
  | succ m ih => exact nrLoop_step m ih

/-- One unfolding at the top sequent `⊢ a ↚ b`: the only candidate is the
NRImpl formula, whose first premise is the looping sequent `a ⊢ a ↚ b`. -/
theorem nrTop_step (n : Nat) (h : prove n [nrA] [nrF] = none) :
    prove (n + 1) [] [nrF] = none := by
  have e1 : prove (n + 1) [] [nrF]
      = (match breakdown n [] [nrF] nrF with
         | none => (none : Option Bool)
         | some true => some true
         | some false => some false) := rfl
  have e2 : breakdown n [] [nrF] nrF
      = (match prove n [nrA] [nrF] with
         | none => (none : Option Bool)
         | some true => some true
         | some false =>
           (match prove n [] [nrF, nrB] with
            | none => none
            | some true => some true
            | some false => some false)) := rfl
  rw [e1, e2, h]

theorem nrTop_none : ∀ n : Nat, prove n [] [nrF] = none := by
  intro n
  cases n with
  | zero => rfl
  | succ m => exact nrTop_step m (nrLoop_none m)

end Sequents

namespace Sequents

/-- The measure named by the specification: the multiset of top-level
formula sizes of the sequent. -/
def topSizes (γ δ : List Formula) : Multiset Nat :=
  ↑((γ ++ δ).map totalSize)

/-- The standard well-founded strict order on multisets of naturals
(Dershowitz-Manna): remove a non-empty sub-multiset and replace it by
elements each strictly below something removed.  This is the order in which
the specification's "strictly decreases the multiset of top-level formula
sizes" has to be read for it to imply termination. -/
def dmLT (M N : Multiset Nat) : Prop :=
  ∃ X Y, X ≤ N ∧ X ≠ 0 ∧ M = N - X + Y ∧ ∀ y ∈ Y, ∃ x ∈ X, y < x

set_option maxRecDepth 8192 in
/-- C3 counterexample: on the sequent `⊢ a ↚ b` the NRImpl-right rule's
first premise is `a ⊢ a ↚ b` — its top-level size multiset `{1, 3}` is not
a Dershowitz-Manna decrease of the original `{3}` (the size-3 formula is
retained and a new element appears), so the claimed measure argument fails;
and `prove` on this sequent indeed yields no result at fuel 50. -/
theorem C3_measure_counterexample :
    nrimplRightPremises [nrF] nrF
        = some [([nrA], [nrF]), ([], [nrF, nrB])]
      ∧ ¬ dmLT (topSizes [nrA] [nrF]) (topSizes [] [nrF])
      ∧ prove 50 [] [nrF] = none := by
  refine ⟨by decide, ?_, by decide⟩
  rintro ⟨X, Y, hXle, hXne, heq, hdom⟩
  have hN : topSizes [] [nrF] = {3} := by decide
  rw [hN] at hXle heq
  rcases Multiset.le_singleton.mp hXle with h0 | h1
  · exact hXne h0
  · subst h1
    rw [tsub_self, zero_add] at heq
    have h3 : (3 : Nat) ∈ Y := by
      rw [← heq]
      decide
    obtain ⟨x, hx, hlt⟩ := hdom 3 h3
    rw [Multiset.mem_singleton] at hx
    subst hx
    exact absurd hlt (lt_irrefl 3)

/-- C3 corrected: `prove` does terminate — fuel `totalSize + 1` suffices —
on sequents whose formulas avoid the NImpl and NRImpl connectives of the
catalogue (and have globally distinct node addresses and the arities the
rules access), because every breakdown premise's node-address multiset
strictly shrinks; but termination fails for the full catalogue: on
`⊢ a ↚ b` the NRImpl-right rule reproduces its own sequent as first
premise, and `prove` yields no result at any fuel. -/
theorem C3_termination_corrected (γ δ : List Formula)
    (hnd : (nodeAddrsList (γ ++ δ)).Nodup) (hok : okL (γ ++ δ) = true) :
    (prove (totalSizeList (γ ++ δ) + 1) γ δ).isSome = true
      ∧ ∀ n : Nat, prove n [] [nrF] = none := by
  refine ⟨?_, nrTop_none⟩
  exact prove_isSome_of_wf _ γ δ hnd hok (Nat.lt_succ_self _)

/-- Witness for the corrected C3 theorem on the sequent
`a → b ⊢ b` (all node addresses distinct). -/
theorem C3_termination_corrected_witness :
    (prove
        (totalSizeList
          ([Formula.node 10 ImplS
              [Formula.node 11 (atomS 0x61) [],
                Formula.node 12 (atomS 0x62) []]]
            ++ [Formula.node 13 (atomS 0x62) []]) + 1)
        [Formula.node 10 ImplS
          [Formula.node 11 (atomS 0x61) [], Formula.node 12 (atomS 0x62) []]]
        [Formula.node 13 (atomS 0x62) []]).isSome = true
      ∧ prove 9 [] [nrF] = none := by
  have h := C3_termination_corrected
    [Formula.node 10 ImplS
      [Formula.node 11 (atomS 0x61) [], Formula.node 12 (atomS 0x62) []]]
    [Formula.node 13 (atomS 0x62) []] (by decide) (by decide)
  exact ⟨h.1, h.2 9⟩

end Sequents

namespace Sequents

/-- `Symbol::hash` (src/formula.hh lines 834-840) for the non-relation,
non-quantifier symbols of this development (`rel` and `quant` are zero, so
the seed bump is the constant 37), on `uint64_t` arithmetic: per byte,
`seed = (257 * seed + c + 13) ^ (seed >> 56)` with the multiply-add taken
mod 2^64 (the shift of the pre-update seed needs no reduction). -/
def symbolHash (s : Symbol) (seed : Nat) : Nat :=
  s.bytes.foldl
    (fun sd c => ((257 * sd + c + 13) % 2 ^ 64) ^^^ (sd >>> 56))
    ((seed + 37) % 2 ^ 64)

mutual
/-- `Formula::hash` (src/formula.hh lines 434-448) for the connective
variant: `seed ^= symbol.hash(seed)`, then for each subformula in order
`seed ^= f.hash(seed)`.  The value depends on the order of the children. -/
def formulaHash : Formula → Nat → Nat
  | .node _ s ch, seed => formulaHashChildren ch (seed ^^^ symbolHash s seed)

def formulaHashChildren : List Formula → Nat → Nat
  | [], seed => seed
  | f :: fs, seed => formulaHashChildren fs (seed ^^^ formulaHash f seed)
end

/-- Sequential short-circuit disjunction of stateful tasks yielding
`Option Bool` (the `for_any` driver under the serial semantics, with the
cache state threaded through). -/
def oAnyS {α : Type} (f : α → CacheState → Option Bool × CacheState) :
    List α → CacheState → Option Bool × CacheState
  | [], s => (some false, s)
  | x :: xs, s =>
    match f x s with
    | (none, s2) => (none, s2)
    | (some true, s2) => (some true, s2)
    | (some false, s2) => oAnyS f xs s2

/-- Sequential short-circuit conjunction of stateful tasks. -/
def oAllS {α : Type} (f : α → CacheState → Option Bool × CacheState) :
    List α → CacheState → Option Bool × CacheState
  | [], s => (some true, s)
  | x :: xs, s =>
    match f x s with
    | (none, s2) => (none, s2)
    | (some false, s2) => (some false, s2)
    | (some true, s2) => oAllS f xs s2

/-- Sequential short-circuit disjunction of stateful Boolean tests (the
`for_any` over the axiom pairs, whose `equal` returns a plain `bool`). -/
def anyBoolS {α : Type} (f : α → CacheState → Bool × CacheState) :
    List α → CacheState → Bool × CacheState
  | [], s => (false, s)
  | x :: xs, s =>
    match f x s with
    | (true, s2) => (true, s2)
    | (false, s2) => anyBoolS f xs s2

/-- `Sequent::equal` with the union-find cache present (src/sequent.hh lines
227-234): `unionfind->equal(first, second)`.  `CompareCache::equal` calls
the statically bound `CompareCache<Formula>::value_hash` (= `Formula::hash`)
and `CompareCache<Formula>::value_compare` (= `Formula::operator==`, i.e.
the order-sensitive `structEq`) — the `UnionFind` subclass's shadowing
`value_compare` is a non-virtual hidden method that the base's `equal` never
invokes. -/
def cachedEqualF (s : CacheState) (p q : Formula) : Bool × CacheState :=
  cacheEqual (fun f => formulaHash f 0) structEq s ⟨p.addr, p⟩ ⟨q.addr, q⟩

/-- The mutual recursion of `Sequent::prove` and `Sequent::breakdown` with
the cache enabled (`usecache = true`, the constructor's default): identical
to `proveCore` except that the axiom search consults `cachedEqualF` and the
single cache state is threaded through the whole proof search (`sub_prove`
passes the same `unionfind` object to every sub-sequent). -/
def proveCoreC : Nat →
    ((List Formula → List Formula → CacheState → Option Bool × CacheState)
      × (List Formula → List Formula → Formula → CacheState →
          Option Bool × CacheState))
  | 0 => (fun _ _ st => (none, st), fun _ _ _ st => (none, st))
  | n + 1 =>
    let prev := proveCoreC n
    let bd : List Formula → List Formula → Formula → CacheState →
        Option Bool × CacheState :=
      fun γ δ f st =>
      if 0 < countAddr γ f then
        let γm := removeAddr γ f
        if f.sym = TrueS then prev.1 γm δ st
        else if f.sym = FalseS then (some true, st)
        else if f.sym = NotS then
          match childAt f 0 with
          | none => (none, st)
          | some x => prev.1 γm (δ ++ [x]) st
        else if f.sym = RImplS then
          oAnyS (fun c st2 =>
            match childAt f 0 with
            | none => (none, st2)
            | some x =>
              if c.addr = x.addr then prev.1 (γm ++ [x]) δ st2
              else
                match childAt f 1 with
                | none => (none, st2)
                | some y =>
                  if c.addr = y.addr then prev.1 γm (δ ++ [y]) st2
                  else (none, st2))
            f.children st
        else if f.sym = ImplS then
          oAnyS (fun c st2 =>
            match childAt f 1 with
            | none => (none, st2)
            | some y =>
              if c.addr = y.addr then prev.1 (γm ++ [y]) δ st2
              else
                match childAt f 0 with
                | none => (none, st2)
                | some x =>
                  if c.addr = x.addr then prev.1 γm (δ ++ [x]) st2
                  else (none, st2))
            f.children st
        else if f.sym = NRImplS then
          match childAt f 0, childAt f 1 with
          | some x, some y => prev.1 (γm ++ [x]) (δ ++ [y]) st
          | _, _ => (none, st)
        else if f.sym = NImplS then
          match childAt f 0, childAt f 1 with
          | some x, some y => prev.1 (γm ++ [y]) (δ ++ [x]) st
          | _, _ => (none, st)
        else if f.sym = AndS then prev.1 (γm ++ f.children) δ st
        else if f.sym = OrS then
          oAllS (fun c st2 => prev.1 (γm ++ [c]) δ st2)
            (sortByKey guideNegative f.children) st
        else if f.sym = NOrS then prev.1 γm (δ ++ f.children) st
        else if f.sym = NAndS then
          oAllS (fun c st2 => prev.1 γm (δ ++ [c]) st2)
            (sortByKey guidePositive f.children) st
        else (some false, st)
      else if 0 < countAddr δ f then
        let δm := removeAddr δ f
        if f.sym = FalseS then prev.1 γ δm st
        else if f.sym = TrueS then (some true, st)
        else if f.sym = NotS then
          match childAt f 0 with
          | none => (none, st)
          | some x => prev.1 (γ ++ [x]) δm st
        else if f.sym = NRImplS then
          oAnyS (fun c st2 =>
            match childAt f 0 with
            | none => (none, st2)
            | some x =>
              if c.addr = x.addr then prev.1 (δm ++ [x]) δ st2
              else
                match childAt f 1 with
                | none => (none, st2)
                | some y =>
                  if c.addr = y.addr then prev.1 δm (δ ++ [y]) st2
                  else (none, st2))
            f.children st
        else if f.sym = NImplS then
          oAnyS (fun c st2 =>
            match childAt f 1 with
            | none => (none, st2)
            | some y =>
              if c.addr = y.addr then prev.1 (δm ++ [y]) δ st2
              else
                match childAt f 0 with
                | none => (none, st2)
                | some x =>
                  if c.addr = x.addr then prev.1 δm (δ ++ [x]) st2
                  else (none, st2))
            f.children st
        else if f.sym = ImplS then
          match childAt f 0, childAt f 1 with
          | some x, some y => prev.1 (γ ++ [x]) (δm ++ [y]) st
          | _, _ => (none, st)
        else if f.sym = RImplS then
          match childAt f 0, childAt f 1 with
          | some x, some y => prev.1 (γ ++ [y]) (δm ++ [x]) st
          | _, _ => (none, st)
        else if f.sym = OrS then prev.1 γ (δm ++ f.children) st
        else if f.sym = AndS then
          oAllS (fun c st2 => prev.1 γ (δm ++ [c]) st2)
            (sortByKey guidePositive f.children) st
        else if f.sym = NAndS then prev.1 (γ ++ f.children) δm st
        else if f.sym = NOrS then
          oAllS (fun c st2 => prev.1 (γ ++ [c]) δm st2)
            (sortByKey guideNegative f.children) st
        else (some false, st)
      else (none, st)
    let pv : List Formula → List Formula → CacheState →
        Option Bool × CacheState := fun γ δ st =>
      if γ.length = 0 ∧ δ.length = 0 then (some true, st)
      else
        let ax := anyBoolS (fun pq st2 => cachedEqualF st2 pq.1 pq.2)
          (sortByKey (fun pq => guideEqual pq.1 pq.2)
            (cartesianPairs γ δ)) st
        if ax.1 then (some true, ax.2)
        else
          oAnyS (fun f st2 => bd γ δ f st2)
            (sortByKey
              (fun f => (if 0 < countAddr γ f then guideNegative f else 0)
                + (if 0 < countAddr δ f then guidePositive f else 0))
              (γ ++ δ)) ax.2
    (pv, bd)

/-- `Sequent::prove` with the cache enabled, from the fresh empty cache that
the toplevel `Sequent` constructor creates. -/
def proveCached (n : Nat) (γ δ : List Formula) : Option Bool :=
  ((proveCoreC n).1 γ δ ⟨[], []⟩).1

end Sequents


namespace Sequents

theorem breakdownC_eq (n : Nat) (γ δ : List Formula) (f : Formula)
    (st : CacheState) :
    (proveCoreC (n + 1)).2 γ δ f st =
      (
      if 0 < countAddr γ f then
        let γm := removeAddr γ f
        if f.sym = TrueS then (proveCoreC n).1 γm δ st
        else if f.sym = FalseS then (some true, st)
        else if f.sym = NotS then
          match childAt f 0 with
          | none => (none, st)
          | some x => (proveCoreC n).1 γm (δ ++ [x]) st
        else if f.sym = RImplS then
          oAnyS (fun c st2 =>
            match childAt f 0 with
            | none => (none, st2)
            | some x =>
              if c.addr = x.addr then (proveCoreC n).1 (γm ++ [x]) δ st2
              else
                match childAt f 1 with
                | none => (none, st2)
                | some y =>
                  if c.addr = y.addr then (proveCoreC n).1 γm (δ ++ [y]) st2
                  else (none, st2))
            f.children st
        else if f.sym = ImplS then
          oAnyS (fun c st2 =>
            match childAt f 1 with
            | none => (none, st2)
            | some y =>
              if c.addr = y.addr then (proveCoreC n).1 (γm ++ [y]) δ st2
              else
                match childAt f 0 with
                | none => (none, st2)
                | some x =>
                  if c.addr = x.addr then (proveCoreC n).1 γm (δ ++ [x]) st2
                  else (none, st2))
            f.children st
        else if f.sym = NRImplS then
          match childAt f 0, childAt f 1 with
          | some x, some y => (proveCoreC n).1 (γm ++ [x]) (δ ++ [y]) st
          | _, _ => (none, st)
        else if f.sym = NImplS then
          match childAt f 0, childAt f 1 with
          | some x, some y => (proveCoreC n).1 (γm ++ [y]) (δ ++ [x]) st
          | _, _ => (none, st)
        else if f.sym = AndS then (proveCoreC n).1 (γm ++ f.children) δ st
        else if f.sym = OrS then
          oAllS (fun c st2 => (proveCoreC n).1 (γm ++ [c]) δ st2)
            (sortByKey guideNegative f.children) st
        else if f.sym = NOrS then (proveCoreC n).1 γm (δ ++ f.children) st
        else if f.sym = NAndS then
          oAllS (fun c st2 => (proveCoreC n).1 γm (δ ++ [c]) st2)
            (sortByKey guidePositive f.children) st
        else (some false, st)
      else if 0 < countAddr δ f then
        let δm := removeAddr δ f
        if f.sym = FalseS then (proveCoreC n).1 γ δm st
        else if f.sym = TrueS then (some true, st)
        else if f.sym = NotS then
          match childAt f 0 with
          | none => (none, st)
          | some x => (proveCoreC n).1 (γ ++ [x]) δm st
        else if f.sym = NRImplS then
          oAnyS (fun c st2 =>
            match childAt f 0 with
            | none => (none, st2)
            | some x =>
              if c.addr = x.addr then (proveCoreC n).1 (δm ++ [x]) δ st2
              else
                match childAt f 1 with
                | none => (none, st2)
                | some y =>
                  if c.addr = y.addr then (proveCoreC n).1 δm (δ ++ [y]) st2
                  else (none, st2))
            f.children st
        else if f.sym = NImplS then
          oAnyS (fun c st2 =>
            match childAt f 1 with
            | none => (none, st2)
            | some y =>
              if c.addr = y.addr then (proveCoreC n).1 (δm ++ [y]) δ st2
              else
                match childAt f 0 with
                | none => (none, st2)
                | some x =>
                  if c.addr = x.addr then (proveCoreC n).1 δm (δ ++ [x]) st2
                  else (none, st2))
            f.children st
        else if f.sym = ImplS then
          match childAt f 0, childAt f 1 with
          | some x, some y => (proveCoreC n).1 (γ ++ [x]) (δm ++ [y]) st
          | _, _ => (none, st)
        else if f.sym = RImplS then
          match childAt f 0, childAt f 1 with
          | some x, some y => (proveCoreC n).1 (γ ++ [y]) (δm ++ [x]) st
          | _, _ => (none, st)
        else if f.sym = OrS then (proveCoreC n).1 γ (δm ++ f.children) st
        else if f.sym = AndS then
          oAllS (fun c st2 => (proveCoreC n).1 γ (δm ++ [c]) st2)
            (sortByKey guidePositive f.children) st
        else if f.sym = NAndS then (proveCoreC n).1 (γ ++ f.children) δm st
        else if f.sym = NOrS then
          oAllS (fun c st2 => (proveCoreC n).1 (γ ++ [c]) δm st2)
            (sortByKey guideNegative f.children) st
        else (some false, st)
      else (none, st)
      ) := rfl

theorem proveC_succ (n : Nat) (γ δ : List Formula) (st : CacheState) :
    (proveCoreC (n + 1)).1 γ δ st =
      (if γ.length = 0 ∧ δ.length = 0 then (some true, st)
       else
         let ax := anyBoolS (fun pq st2 => cachedEqualF st2 pq.1 pq.2)
           (sortByKey (fun pq => guideEqual pq.1 pq.2)
             (cartesianPairs γ δ)) st
         if ax.1 then (some true, ax.2)
         else
           oAnyS (fun f st2 => (proveCoreC (n + 1)).2 γ δ f st2)
             (sortByKey
               (fun f => (if 0 < countAddr γ f then guideNegative f else 0)
                 + (if 0 < countAddr δ f then guidePositive f else 0))
               (γ ++ δ)) ax.2) := rfl

end Sequents

namespace Sequents

theorem oAny_of_all_false {α : Type} {f : α → Option Bool} {l : List α}
    (h : ∀ x ∈ l, f x = some false) : oAny f l = some false := by
  induction l with
  | nil => rfl
  | cons x xs ih =>
    show (match f x with
          | none => none
          | some true => some true
          | some false => oAny f xs) = some false
    rw [h x (List.mem_cons_self x xs)]
    exact ih fun y hy => h y (List.mem_cons_of_mem x hy)

theorem oAnyS_of_all_false {α : Type}
    {f : α → CacheState → Option Bool × CacheState} {l : List α}
    (h : ∀ x ∈ l, ∀ st, f x st = (some false, st)) :
    ∀ st : CacheState, oAnyS f l st = (some false, st) := by
  induction l with
  | nil => intro st; rfl
  | cons x xs ih =>
    intro st
    show (match f x st with
          | (none, s2) => ((none : Option Bool), s2)
          | (some true, s2) => (some true, s2)
          | (some false, s2) => oAnyS f xs s2) = (some false, st)
    rw [h x (List.mem_cons_self x xs) st]
    exact ih (fun y hy => h y (List.mem_cons_of_mem x hy)) st

/-- A formula on either side whose symbol has no rule falls through both
`switch` statements to the `default:` branch, which returns `false` (shared
form of the C8 observation, used for the cache-agreement analysis). -/
theorem breakdown_unhandled (n : Nat) (γ δ : List Formula) (f : Formula)
    (hside : 0 < countAddr γ f ∨ 0 < countAddr δ f)
    (hsym : f.sym ∉ handledSymbols) :
    breakdown n γ δ f = some false := by
  simp only [handledSymbols, List.mem_cons, List.not_mem_nil, or_false,
    not_or] at hsym
  obtain ⟨hT, hF, hN, hA, hO, hNA, hNO, hI, hRI, hNI, hNRI⟩ := hsym
  rw [breakdown_eq]
  by_cases hγ : 0 < countAddr γ f
  · rw [if_pos hγ]
    simp only [if_neg hT, if_neg hF, if_neg hN, if_neg hRI, if_neg hI,
      if_neg hNRI, if_neg hNI, if_neg hA, if_neg hO, if_neg hNO, if_neg hNA]
  · rcases hside with h | hδ
    · exact absurd h hγ
    · rw [if_neg hγ, if_pos hδ]
      simp only [if_neg hT, if_neg hF, if_neg hN, if_neg hRI, if_neg hI,
        if_neg hNRI, if_neg hNI, if_neg hA, if_neg hO, if_neg hNO,
        if_neg hNA]

/-- The cached breakdown behaves identically on an unhandled symbol, and in
particular does not touch the cache state. -/
theorem breakdownC_unhandled (n : Nat) (γ δ : List Formula) (f : Formula)
    (st : CacheState)
    (hside : 0 < countAddr γ f ∨ 0 < countAddr δ f)
    (hsym : f.sym ∉ handledSymbols) :
    (proveCoreC (n + 1)).2 γ δ f st = (some false, st) := by
  simp only [handledSymbols, List.mem_cons, List.not_mem_nil, or_false,
    not_or] at hsym
  obtain ⟨hT, hF, hN, hA, hO, hNA, hNO, hI, hRI, hNI, hNRI⟩ := hsym
  rw [breakdownC_eq]
  by_cases hγ : 0 < countAddr γ f
  · rw [if_pos hγ]
    simp only [if_neg hT, if_neg hF, if_neg hN, if_neg hRI, if_neg hI,
      if_neg hNRI, if_neg hNI, if_neg hA, if_neg hO, if_neg hNO, if_neg hNA]
  · rcases hside with h | hδ
    · exact absurd h hγ
    · rw [if_neg hγ, if_pos hδ]
      simp only [if_neg hT, if_neg hF, if_neg hN, if_neg hRI, if_neg hI,
        if_neg hNRI, if_neg hNI, if_neg hA, if_neg hO, if_neg hNO,
        if_neg hNA]

/-- From the empty cache, the cached equality on two equal-symbol childless
formulas at addresses 1 and 2 succeeds: the union-find misses, the two
hashes agree (`Formula::hash` never reads the object address), and the
order-sensitive deep comparison accepts. -/
theorem cachedEqualF_atoms_true (sp : Symbol) :
    (cachedEqualF ⟨[], []⟩ (Formula.node 1 sp []) (Formula.node 2 sp [])).1
      = true := by
  simp only [cachedEqualF, cacheEqual, cacheFind, cacheHash, cacheJoin, chase,
    mapLookup, mapInsert, List.find?, List.filter, Formula.addr]
  norm_num
  simp [structEq]
  rw [if_pos (show formulaHash (Formula.node 1 sp []) 0
    = formulaHash (Formula.node 2 sp []) 0 from rfl)]
  rfl

/-- From the empty cache, the cached equality on two distinct-symbol
childless formulas fails: either the hash pre-filter rejects the pair or the
deep comparison does. -/
theorem cachedEqualF_atoms_false (sp sq : Symbol) (h : sp ≠ sq) :
    (cachedEqualF ⟨[], []⟩ (Formula.node 1 sp []) (Formula.node 2 sq [])).1
      = false := by
  simp only [cachedEqualF, cacheEqual, cacheFind, cacheHash, cacheJoin, chase,
    mapLookup, mapInsert, List.find?, List.filter, Formula.addr]
  norm_num
  by_cases hh : formulaHash (Formula.node 1 sp []) 0
      = formulaHash (Formula.node 2 sq []) 0
  · simp [hh, structEq, h]
  · simp [hh, structEq, h]

end Sequents

namespace Sequents

theorem countAddr_self_single (f : Formula) : countAddr [f] f = 1 := by
  simp [countAddr, List.filter]

/-- C10 counterexample: on the sequent `Xor(a, b) ⊢ Xor(b, a)` the prover
without the cache proves the sequent (`formulas_equal` treats Xor as
commutative), but the prover with the cache enabled returns `false`: the
cached equality hashes the two formulas with the child-order-sensitive
`Formula::hash`, gets different values, and rejects the pair without ever
running a commutativity-aware comparison (`CompareCache::equal` statically
binds `value_compare` to `Formula::operator==`, so the `UnionFind`
subclass's `formulas_equal`-based override is dead code). -/
theorem C10_cache_counterexample :
    prove 1
      [Formula.node 1 XorS
        [Formula.node 2 (atomS 0x61) [], Formula.node 3 (atomS 0x62) []]]
      [Formula.node 4 XorS
        [Formula.node 5 (atomS 0x62) [], Formula.node 6 (atomS 0x61) []]]
      = some true
    ∧ proveCached 1
      [Formula.node 1 XorS
        [Formula.node 2 (atomS 0x61) [], Formula.node 3 (atomS 0x62) []]]
      [Formula.node 4 XorS
        [Formula.node 5 (atomS 0x62) [], Formula.node 6 (atomS 0x61) []]]
      = some false
    ∧ formulasEqual
      (Formula.node 1 XorS
        [Formula.node 2 (atomS 0x61) [], Formula.node 3 (atomS 0x62) []])
      (Formula.node 4 XorS
        [Formula.node 5 (atomS 0x62) [], Formula.node 6 (atomS 0x61) []])
      = true
    ∧ formulaHash
      (Formula.node 1 XorS
        [Formula.node 2 (atomS 0x61) [], Formula.node 3 (atomS 0x62) []]) 0
      ≠ formulaHash
      (Formula.node 4 XorS
        [Formula.node 5 (atomS 0x62) [], Formula.node 6 (atomS 0x61) []]) 0
    ∧ (some true ≠ (some false : Option Bool)) := by
  refine ⟨by decide, by decide, by decide, by decide, by decide⟩

/-- C10 corrected: the cached and uncached provers agree on sequents of the
form `p ⊢ q` where `p` and `q` are childless formulas (at distinct
addresses) whose symbols have no breakdown rule: when the symbols are equal
both provers prove the sequent through the equality axiom, and when they
differ both reject it.  The counterexample above shows the agreement is
lost as soon as a commutative connective makes `formulas_equal` coarser
than the hash-gated `operator==` of the cache. -/
theorem C10_cached_prover_agreement (n : Nat) (sp sq : Symbol)
    (hp : sp ∉ handledSymbols) (hq : sq ∉ handledSymbols) :
    prove (n + 1) [Formula.node 1 sp []] [Formula.node 2 sq []]
      = proveCached (n + 1) [Formula.node 1 sp []] [Formula.node 2 sq []] := by
  by_cases hss : sp = sq
  · subst hss
    have hfe : formulasEqual (Formula.node 1 sp []) (Formula.node 2 sp [])
        = true := by
      show feCore 2 (Formula.node 1 sp []) (Formula.node 2 sp []) = true
      simp [feCore, structEq]
      exact Or.inl rfl
    have hunc : prove (n + 1) [Formula.node 1 sp []] [Formula.node 2 sp []]
        = some true := by
      rw [prove_succ, if_neg (by simp)]
      have hax : (sortByKey (fun pq => guideEqual pq.1 pq.2)
          (cartesianPairs [Formula.node 1 sp []] [Formula.node 2 sp []])).any
            (fun pq => formulasEqual pq.1 pq.2) = true := by
        show (formulasEqual (Formula.node 1 sp []) (Formula.node 2 sp [])
          || false) = true
        rw [hfe]
        rfl
      rw [if_pos hax]
    have hcac : proveCached (n + 1)
        [Formula.node 1 sp []] [Formula.node 2 sp []] = some true := by
      show (((proveCoreC (n + 1)).1
        [Formula.node 1 sp []] [Formula.node 2 sp []] ⟨[], []⟩).1 = some true)
      cases hres : cachedEqualF ⟨[], []⟩
          (Formula.node 1 sp []) (Formula.node 2 sp []) with
      | mk b st2 =>
        have hb : b = true := by
          have h2 := cachedEqualF_atoms_true sp
          rw [hres] at h2
          exact h2
        subst hb
        have hax : anyBoolS (fun pq st2 => cachedEqualF st2 pq.1 pq.2)
            (sortByKey (fun pq => guideEqual pq.1 pq.2)
              (cartesianPairs [Formula.node 1 sp []]
                [Formula.node 2 sp []])) ⟨[], []⟩ = (true, st2) := by
          show (match cachedEqualF ⟨[], []⟩
              (Formula.node 1 sp []) (Formula.node 2 sp []) with
            | (true, s2) => ((true : Bool), s2)
            | (false, s2) => ((false : Bool), s2)) = (true, st2)
          rw [hres]
        rw [proveC_succ, if_neg (by simp)]
        simp only [hax]
        rfl
    rw [hunc, hcac]
  · have hfe : formulasEqual (Formula.node 1 sp []) (Formula.node 2 sq [])
        = false := by
      show feCore 2 (Formula.node 1 sp []) (Formula.node 2 sq []) = false
      simp [feCore, structEq, hss]
    have hunc : prove (n + 1) [Formula.node 1 sp []] [Formula.node 2 sq []]
        = some false := by
      rw [prove_succ, if_neg (by simp)]
      have hax : (sortByKey (fun pq => guideEqual pq.1 pq.2)
          (cartesianPairs [Formula.node 1 sp []] [Formula.node 2 sq []])).any
            (fun pq => formulasEqual pq.1 pq.2) = false := by
        show (formulasEqual (Formula.node 1 sp []) (Formula.node 2 sq [])
          || false) = false
        rw [hfe]
        rfl
      rw [if_neg (by simp [hax])]
      apply oAny_of_all_false
      intro x hx
      rcases List.mem_append.mp (mem_sortByKey hx) with hx1 | hx2
      · rw [List.mem_singleton] at hx1
        subst hx1
        exact breakdown_unhandled n _ _ _ (Or.inl (by rw [countAddr_self_single]; exact Nat.zero_lt_one)) hp
      · rw [List.mem_singleton] at hx2
        subst hx2
        exact breakdown_unhandled n _ _ _ (Or.inr (by rw [countAddr_self_single]; exact Nat.zero_lt_one)) hq
    have hcac : proveCached (n + 1)
        [Formula.node 1 sp []] [Formula.node 2 sq []] = some false := by
      show (((proveCoreC (n + 1)).1
        [Formula.node 1 sp []] [Formula.node 2 sq []] ⟨[], []⟩).1
          = some false)
      cases hres : cachedEqualF ⟨[], []⟩
          (Formula.node 1 sp []) (Formula.node 2 sq []) with
      | mk b st2 =>
        have hb : b = false := by
          have h2 := cachedEqualF_atoms_false sp sq hss
          rw [hres] at h2
          exact h2
        subst hb
        have hax : anyBoolS (fun pq st2 => cachedEqualF st2 pq.1 pq.2)
            (sortByKey (fun pq => guideEqual pq.1 pq.2)
              (cartesianPairs [Formula.node 1 sp []]
                [Formula.node 2 sq []])) ⟨[], []⟩ = (false, st2) := by
          show (match cachedEqualF ⟨[], []⟩
              (Formula.node 1 sp []) (Formula.node 2 sq []) with
            | (true, s2) => ((true : Bool), s2)
            | (false, s2) => ((false : Bool), s2)) = (false, st2)
          rw [hres]
        rw [proveC_succ, if_neg (by simp)]
        simp only [hax]
        rw [if_neg (by decide)]
        rw [oAnyS_of_all_false ?_ ((false, st2).2)]
        intro x hx st
        rcases List.mem_append.mp (mem_sortByKey hx) with hx1 | hx2
        · rw [List.mem_singleton] at hx1
          subst hx1
          exact breakdownC_unhandled n _ _ _ st (Or.inl (by rw [countAddr_self_single]; exact Nat.zero_lt_one)) hp
        · rw [List.mem_singleton] at hx2
          subst hx2
          exact breakdownC_unhandled n _ _ _ st (Or.inr (by rw [countAddr_self_single]; exact Nat.zero_lt_one)) hq
    rw [hunc, hcac]

/-- Witness for the corrected C10 agreement theorem on `p ⊢ q` with
distinct atom symbols. -/
theorem C10_cached_prover_agreement_witness :
    prove 4 [Formula.node 1 (atomS 0x70) []] [Formula.node 2 (atomS 0x71) []]
      = proveCached 4
        [Formula.node 1 (atomS 0x70) []]
        [Formula.node 2 (atomS 0x71) []] :=
  C10_cached_prover_agreement 3 (atomS 0x70) (atomS 0x71) (by decide)
    (by decide)

end Sequents
